import Mathlib

/-!
Verification development for the as6-migration-tools repository.

The Python sources are embedded shallowly: file contents are `List Char`
(each Latin-1 byte decodes to one character, so reading with the
iso-8859-1 codec is the identity on the modeled text), `re.subn` on the
two pattern shapes the code builds (a literal pattern from `re.escape`,
and a word-bounded pattern `\b…\b`) is implemented as a left-to-right
non-overlapping scan, file writes are recorded in the returned result
records, and the MD5 digest of `utils.calculate_file_hash` is an
arbitrary function parameter `hash : List Char → Nat` (the passes only
ever compare digests for equality).
-/

/-- Word character of the regex `\b` boundary (`[A-Za-z0-9_]`), as the
mapping-table identifiers are ASCII. -/
def isWordChar (c : Char) : Bool :=
  (('a' ≤ c && c ≤ 'z') || ('A' ≤ c && c ≤ 'Z') || ('0' ≤ c && c ≤ '9') || c = '_')

/-- Word-character test extended to an optional character; the edge of the
string counts as a non-word position. -/
def isWordOpt : Option Char → Bool
  | none => false
  | some c => isWordChar c

/-- The `\b` assertion between two adjacent (optional) characters: it holds
when exactly one side is a word character. -/
def bOk (a b : Option Char) : Bool :=
  isWordOpt a != isWordOpt b

/-- Whether `p` is a prefix of `s`. -/
def startsWithL : List Char → List Char → Bool
  | [], _ => true
  | _ :: _, [] => false
  | p :: ps, c :: cs => p == c && startsWithL ps cs

/-- Whether the literal pattern `p` occurs anywhere in `s` (as done by a
regex search for `re.escape(p)`). -/
def occursIn (p : List Char) : List Char → Bool
  | [] => startsWithL p []
  | c :: rest => startsWithL p (c :: rest) || occursIn p rest

/-- Fuel-driven core of the literal `re.subn(re.escape(pat), repl, s)` scan:
at each position the leftmost occurrence of `pat` is replaced by `repl` and
the scan resumes after the matched text (matches never overlap and the
replacement text is never rescanned).  With `fuel = s.length` each step
consumes at least one input character, so the fuel never runs out. -/
def subnLitF (pat repl : List Char) : Nat → List Char → List Char × Nat
  | 0, s => (s, 0)
  | _ + 1, [] => ([], 0)
  | f + 1, c :: rest =>
    if !pat.isEmpty && startsWithL pat (c :: rest) then
      let r := subnLitF pat repl f ((c :: rest).drop pat.length)
      (repl ++ r.1, r.2 + 1)
    else
      let r := subnLitF pat repl f rest
      (c :: r.1, r.2)

/-- `re.subn(re.escape(pat), repl, s)`, returning the new text and the
number of replacements. -/
def subnLit (pat repl s : List Char) : List Char × Nat :=
  subnLitF pat repl s.length s

/-- Fuel-driven core of `re.subn(rf"\b{re.escape(pat)}\b", repl, s)`:
the scan of `subnLitF` restricted to matches whose two ends satisfy the
`\b` assertion against the characters of the original text (`prev` is the
original character just before the current position). -/
def subnWBF (pat repl : List Char) : Nat → Option Char → List Char → List Char × Nat
  | 0, _, s => (s, 0)
  | _ + 1, _, [] => ([], 0)
  | f + 1, prev, c :: rest =>
    if !pat.isEmpty && startsWithL pat (c :: rest) && bOk prev pat.head? &&
        bOk pat.getLast? ((c :: rest).drop pat.length).head? then
      let r := subnWBF pat repl f pat.getLast? ((c :: rest).drop pat.length)
      (repl ++ r.1, r.2 + 1)
    else
      let r := subnWBF pat repl f (some c) rest
      (c :: r.1, r.2)

/-- `re.subn(rf"\b{re.escape(pat)}\b", repl, s)` on a whole file content. -/
def subnWB (pat repl s : List Char) : List Char × Nat :=
  subnWBF pat repl s.length none s

/-- Fuel-driven core of `re.search(rf"\b{re.escape(pat)}\b", s)`: whether a
word-bounded occurrence of `pat` exists, scanning like `subnWBF`. -/
def containsWBF (pat : List Char) : Nat → Option Char → List Char → Bool
  | 0, _, _ => false
  | _ + 1, _, [] => false
  | f + 1, prev, c :: rest =>
    (!pat.isEmpty && startsWithL pat (c :: rest) && bOk prev pat.head? &&
        bOk pat.getLast? ((c :: rest).drop pat.length).head?) ||
      containsWBF pat f (some c) rest

/-- Truth value of `re.search(rf"\b{re.escape(pat)}\b", s)`. -/
def containsWB (pat s : List Char) : Bool :=
  containsWBF pat s.length none s

/-! ## Rewrite passes of `helpers/mappmotion_update.py`

Each pass reads the file, applies its mapping tables to the text, and when
the text changed writes it back and re-hashes the file; the digest of
`utils.calculate_file_hash` is the abstract parameter `hash`.  The result
records carry the returned values (replacement counts and the `changed`
flag) together with the final bytes of the file and whether a write
happened. -/

/-- Result of `replace_enums` / `replace_inputs` (the Python functions
return `(count, changed)`; `fileContent` and `wroteFile` record the effect
on the file). -/
structure RewriteResult where
  replacements : Nat
  changed : Bool
  fileContent : List Char
  wroteFile : Bool
  deriving DecidableEq

/-- The enum loop of `replace_enums`: for each `(old_const, new_const)` in
table order, `re.subn(re.escape(old_const), new_const, modified_content)`,
accumulating the replacement count. -/
def applyEnumMapping (m : List (List Char × List Char)) (content : List Char) :
    List Char × Nat :=
  m.foldl (fun acc kv =>
    let r := subnLit kv.1 kv.2 acc.1
    (r.1, acc.2 + r.2)) (content, 0)

/-- `replace_enums(file_path, enum_mapping)`: literal substitution of each
enumerator, then the write-back guarded by the digest comparison. -/
def replace_enums (hash : List Char → Nat) (content : List Char)
    (enum_mapping : List (List Char × List Char)) : RewriteResult :=
  if (applyEnumMapping enum_mapping content).1 ≠ content then
    if hash content = hash (applyEnumMapping enum_mapping content).1 then
      ⟨(applyEnumMapping enum_mapping content).2, false,
        (applyEnumMapping enum_mapping content).1, true⟩
    else
      ⟨(applyEnumMapping enum_mapping content).2, true,
        (applyEnumMapping enum_mapping content).1, true⟩
  else
    ⟨(applyEnumMapping enum_mapping content).2, false, content, false⟩

/-- One entry of the input loop of `replace_inputs`: the leading `.` is
added to both sides and the pattern is `rf"\b{re.escape('.' + old)}\b"`. -/
def inputPairSub (old new s : List Char) : List Char × Nat :=
  subnWB ('.' :: old) ('.' :: new) s

/-- The input loop of `replace_inputs` over the whole mapping table. -/
def applyInputMapping (m : List (List Char × List Char)) (content : List Char) :
    List Char × Nat :=
  m.foldl (fun acc kv =>
    let r := inputPairSub kv.1 kv.2 acc.1
    (r.1, acc.2 + r.2)) (content, 0)

/-- `replace_inputs(file_path, input_mapping)`. -/
def replace_inputs (hash : List Char → Nat) (content : List Char)
    (input_mapping : List (List Char × List Char)) : RewriteResult :=
  if (applyInputMapping input_mapping content).1 ≠ content then
    if hash content = hash (applyInputMapping input_mapping content).1 then
      ⟨(applyInputMapping input_mapping content).2, false,
        (applyInputMapping input_mapping content).1, true⟩
    else
      ⟨(applyInputMapping input_mapping content).2, true,
        (applyInputMapping input_mapping content).1, true⟩
  else
    ⟨(applyInputMapping input_mapping content).2, false, content, false⟩

/-- The FB loop and the type loop of `replace_fbs_and_types` share this
shape: for each `(old, new)` in table order,
`re.subn(rf"\b{re.escape(old)}\b", new, modified_content)`. -/
def applyWbMapping (m : List (List Char × List Char)) (content : List Char) :
    List Char × Nat :=
  m.foldl (fun acc kv =>
    let r := subnWB kv.1 kv.2 acc.1
    (r.1, acc.2 + r.2)) (content, 0)

/-- Text before the first `.` of a removal-mapping target
(`replacement.split(".")[0]`). -/
def dotPart0 (new : List Char) : List Char :=
  new.takeWhile (fun c => c ≠ '.')

/-- Text between the first and second `.` of a removal-mapping target
(`replacement.split(".")[1]`). -/
def dotPart1 (new : List Char) : List Char :=
  ((new.dropWhile (fun c => c ≠ '.')).drop 1).takeWhile (fun c => c ≠ '.')

/-- The message printed for one matched removal-mapping entry. -/
def removalMessage (old new : List Char) : String :=
  if new.contains '.' then
    "Found usage(s) of " ++ String.mk old ++
      ", the functionality is now covered by the element " ++
      String.mk (dotPart1 new) ++ " of the FB " ++ String.mk (dotPart0 new) ++
      " - skipping auto-replacement due to expected functionality change"
  else
    "Found usage(s) of " ++ String.mk old ++
      ", the functionality is now covered by the FB " ++ String.mk new ++
      "- skipping auto-replacement due to expected functionality change"

/-- The removal loop of `replace_fbs_and_types`: each entry whose pattern
`rf"\b{re.escape(old_fb)}\b"` is found in the current content is only
reported; nothing is substituted and nothing is counted. -/
def removalMessages (m : List (List Char × List Char)) (content : List Char) :
    List String :=
  m.flatMap (fun kv =>
    if containsWB kv.1 content then [removalMessage kv.1 kv.2] else [])

/-- Result of `replace_fbs_and_types` (the Python function returns
`(fb_replacements, type_replacements, changed)` and prints the removal
messages while running). -/
structure FbResult where
  fbReplacements : Nat
  typeReplacements : Nat
  changed : Bool
  fileContent : List Char
  wroteFile : Bool
  messages : List String
  deriving DecidableEq

/-- `replace_fbs_and_types(file_path, fb_mapping, type_mapping,
fb_removal_mapping)`: the FB loop, then the removal loop (searching the
content as left by the FB loop), then the type loop, then the guarded
write-back. -/
def replace_fbs_and_types (hash : List Char → Nat) (content : List Char)
    (fb_mapping type_mapping fb_removal_mapping : List (List Char × List Char)) :
    FbResult :=
  if (applyWbMapping type_mapping (applyWbMapping fb_mapping content).1).1 ≠ content then
    if hash content =
        hash (applyWbMapping type_mapping (applyWbMapping fb_mapping content).1).1 then
      ⟨(applyWbMapping fb_mapping content).2,
        (applyWbMapping type_mapping (applyWbMapping fb_mapping content).1).2, false,
        (applyWbMapping type_mapping (applyWbMapping fb_mapping content).1).1, true,
        removalMessages fb_removal_mapping (applyWbMapping fb_mapping content).1⟩
    else
      ⟨(applyWbMapping fb_mapping content).2,
        (applyWbMapping type_mapping (applyWbMapping fb_mapping content).1).2, true,
        (applyWbMapping type_mapping (applyWbMapping fb_mapping content).1).1, true,
        removalMessages fb_removal_mapping (applyWbMapping fb_mapping content).1⟩
  else
    ⟨(applyWbMapping fb_mapping content).2,
      (applyWbMapping type_mapping (applyWbMapping fb_mapping content).1).2, false,
      content, false,
      removalMessages fb_removal_mapping (applyWbMapping fb_mapping content).1⟩

/-! ## Path helpers (`os.path` on POSIX separators) -/

/-- `os.path.split(p)`: everything up to and including the last `/`, and
the final component. -/
def posixSplit (p : List Char) : List Char × List Char :=
  ((p.reverse.dropWhile (fun c => c ≠ '/')).reverse,
    (p.reverse.takeWhile (fun c => c ≠ '/')).reverse)

/-- `os.path.basename(p)`. -/
def basename (p : List Char) : List Char :=
  (posixSplit p).2

/-- `os.path.dirname(p)`: the head of the split, with trailing separators
stripped unless the head consists only of separators. -/
def dirname (p : List Char) : List Char :=
  if (posixSplit p).1 ≠ [] ∧ (posixSplit p).1.any (fun c => c ≠ '/') then
    ((posixSplit p).1.reverse.dropWhile (fun c => c = '/')).reverse
  else
    (posixSplit p).1

/-- The configuration folder of a `.hw` file in `check_hardware`:
`os.path.basename(os.path.dirname(file_path))`. -/
def configName (p : List Char) : List Char :=
  basename (dirname p)

/-! ## `utils.scan_files_parallel`

The directory tree is modeled as the list `files` of the regular files
under the root in traversal order, an extraction function as a pair of its
`__name__` and a function from a file path to that file's result list, and
the nondeterministic completion order of the thread pool as the list
`completed` of paths in the order their futures complete (a permutation of
the enumerated paths). -/

/-- Whether `name` matches the glob pattern `*{ext}`. -/
def endsWithL (name ext : List Char) : Bool :=
  startsWithL ext.reverse name.reverse

/-- The eager enumeration
`[str(path) for ext in extensions for path in root_dir.rglob(f"*{ext}") if path.is_file()]`:
for each extension in order, every file whose name matches `*{ext}`. -/
def filePathsOf (files : List (List Char)) (extensions : List (List Char)) :
    List (List Char) :=
  extensions.flatMap (fun ext => files.filter (fun p => endsWithL (basename p) ext))

/-- Insertion into a Python dict: an existing key keeps its position and
gets the new value, a new key is appended. -/
def insertOrReplace {α : Type} (m : List (String × α)) (k : String) (v : α) :
    List (String × α) :=
  if m.any (fun kv => decide (kv.1 = k)) then
    m.map (fun kv => if kv.1 = k then (kv.1, v) else kv)
  else
    m ++ [(k, v)]

/-- Dict lookup. -/
def lookupAssoc {α : Type} (k : String) (m : List (String × α)) : Option α :=
  (m.find? (fun kv => decide (kv.1 = k))).map (fun kv => kv.2)

/-- `results[func_name].extend(result)`: appends to the entry of an
existing key (and does nothing when the key is absent, which cannot happen
in `scan_files_parallel` since `results` is initialized from the same
function list). -/
def extendAssoc {α : Type} (m : List (String × List α)) (k : String)
    (r : List α) : List (String × List α) :=
  m.map (fun kv => if kv.1 = k then (kv.1, kv.2 ++ r) else kv)

/-- `results = {func.__name__: [] for func in process_functions}`. -/
def initResults {α : Type} (funcs : List (String × (List Char → List α))) :
    List (String × List α) :=
  funcs.foldl (fun acc nf => insertOrReplace acc nf.1 []) []

/-- `process_file(path)`: the per-file dict
`{func.__name__: func(path, *args) for func in process_functions}`
(built by successive assignment, so functions sharing a `__name__`
overwrite each other). -/
def fileResults {α : Type} (funcs : List (String × (List Char → List α)))
    (path : List Char) : List (String × List α) :=
  funcs.foldl (fun acc nf => insertOrReplace acc nf.1 (nf.2 path)) []

/-- `scan_files_parallel` in list mode: the futures' results are folded
into `results` in completion order, extending each function's entry. -/
def scan_files_parallel_multi {α : Type}
    (funcs : List (String × (List Char → List α)))
    (completed : List (List Char)) : List (String × List α) :=
  completed.foldl
    (fun res path =>
      (fileResults funcs path).foldl (fun r kv => extendAssoc r kv.1 kv.2) res)
    (initResults funcs)

/-- `scan_files_parallel` when a single function (not a list) is supplied:
the flattened entry `results[process_functions[0].__name__]`. -/
def scan_files_parallel_single {α : Type} (nf : String × (List Char → List α))
    (completed : List (List Char)) : List α :=
  (lookupAssoc nf.1 (scan_files_parallel_multi [nf] completed)).getD []

/-! ## `checks/hardware_check.py` -/

/-- Attempt of the tail `Type="([^"]+)"` of the module regex at offset `j`
of `s` (the text after a `<Module ` occurrence): on success the captured
attribute value and the offset just past the closing quote. -/
def typeAttrAt (s : List Char) (j : Nat) : Option (List Char × Nat) :=
  if startsWithL "Type=\"".toList (s.drop j) then
    if ((s.drop (j + 6)).takeWhile (fun c => c ≠ '"')) ≠ [] ∧
        (s.drop (j + 6 + ((s.drop (j + 6)).takeWhile (fun c => c ≠ '"')).length)).head?
          = some '"' then
      some ((s.drop (j + 6)).takeWhile (fun c => c ≠ '"'),
        j + 6 + ((s.drop (j + 6)).takeWhile (fun c => c ≠ '"')).length + 1)
    else none
  else none

/-- Backtracking of the greedy `[^>]*` of the module regex: the largest
`>`-free prefix length is tried first, so the last `Type="` inside the
`>`-free run wins. -/
def tryTypeMatch (s : List Char) : Option (List Char × Nat) :=
  ((List.range ((s.takeWhile (fun c => c ≠ '>')).length + 1)).reverse).findSome?
    (fun j => typeAttrAt s j)

/-- Fuel-driven core of
`re.findall(r'<Module [^>]*Type="([^"]+)"', content)`: scan for
`<Module `, match the rest of the pattern there, emit the capture and
resume after the match (on failure resume one character later). -/
def hwFindallF : Nat → List Char → List (List Char)
  | 0, _ => []
  | _ + 1, [] => []
  | f + 1, c :: rest =>
    if startsWithL "<Module ".toList (c :: rest) then
      match tryTypeMatch ((c :: rest).drop 8) with
      | some (t, consumed) => t :: hwFindallF f (((c :: rest).drop 8).drop consumed)
      | none => hwFindallF f rest
    else hwFindallF f rest

/-- All captures of the module-type regex over a `.hw` file content. -/
def hwFindall (s : List Char) : List (List Char) :=
  hwFindallF s.length s

/-- `results.add(x)` on a set modeled as a duplicate-free list in insertion
order. -/
def insertIfAbsent {β : Type} [DecidableEq β] (l : List β) (x : β) : List β :=
  if x ∈ l then l else l ++ [x]

/-- `process_hw_file(file_path, hardware_dict)` applied to the file's text:
every extracted module type is looked up in every catalog entry and the
matches are collected as the set of `(hw_type, reason, file_path)`
tuples. -/
def process_hw_file (file_path content : List Char)
    (hardware_dict : List (List Char × List (List Char))) :
    List (List Char × List Char × List Char) :=
  (hwFindall content).foldl
    (fun results hw_type =>
      hardware_dict.foldl
        (fun rs rim =>
          if hw_type ∈ rim.2 then insertIfAbsent rs (hw_type, rim.1, file_path)
          else rs)
        results)
    []

/-- One step of the grouping loop of `check_hardware`:
`grouped_results.setdefault(id, {"reason": reason, "configs": []})` then
`grouped_results[id]["configs"].append(cfg)`. -/
def groupInsert (acc : List (List Char × List Char × List (List Char)))
    (id reason cfg : List Char) : List (List Char × List Char × List (List Char)) :=
  if acc.any (fun e => decide (e.1 = id)) then
    acc.map (fun e => if e.1 = id then (e.1, e.2.1, e.2.2 ++ [cfg]) else e)
  else
    acc ++ [(id, reason, [cfg])]

/-- The grouping loop of `check_hardware` over the aggregated scan results:
the configuration name of each record is
`os.path.basename(os.path.dirname(file_path))`. -/
def groupResults (rs : List (List Char × List Char × List Char)) :
    List (List Char × List Char × List (List Char)) :=
  rs.foldl (fun acc rec => groupInsert acc rec.1 rec.2.1 (configName rec.2.2)) []

/-- Lookup of one grouped entry by hardware identifier. -/
def lookupGroup (id : List Char)
    (l : List (List Char × List Char × List (List Char))) :
    Option (List Char × List (List Char)) :=
  (l.find? (fun e => decide (e.1 = id))).map (fun e => e.2)

/-- Python string comparison (codepoint-lexicographic), as used by
`sorted` on the configuration names. -/
def lexLe : List Char → List Char → Bool
  | [], _ => true
  | _ :: _, [] => false
  | x :: xs, y :: ys =>
    if x.toNat < y.toNat then true
    else if y.toNat < x.toNat then false
    else lexLe xs ys

/-- Insertion into a `lexLe`-sorted list. -/
def insertSorted (x : List Char) : List (List Char) → List (List Char)
  | [] => [x]
  | y :: ys => if lexLe x y then x :: y :: ys else y :: insertSorted x ys

/-- `sorted(l)` for configuration-name lists. -/
def sortConfigs (l : List (List Char)) : List (List Char) :=
  l.foldr insertSorted []

/-- The per-identifier report line of `check_hardware`: the names shown by
`", ".join(sorted(entries["configs"][:3]))` and the count of the
`", and N more..."` suffix emitted when `len(entries["configs"]) > 3`. -/
def reportEntry (configs : List (List Char)) : List (List Char) × Option Nat :=
  (sortConfigs (configs.take 3),
    if 3 < configs.length then some (configs.length - 3) else none)

/-! ## `check_for_library` and the control flow of `main`
(`helpers/mappmotion_update.py`) -/

/-- Console output of the modeled run: either a bare `print` or a call of
`utils.log` with a severity tag. -/
inductive OutMsg where
  | plain (text : String)
  | logged (text : String) (severity : String)
  deriving DecidableEq

/-- How the modeled run ends: `sys.exit(code)` with a nonzero code, the
`return` after "Operation cancelled", or reaching the replacement phase
and returning normally. -/
inductive RunOutcome where
  | exitFailure (code : Nat)
  | cancelled
  | proceeded
  deriving DecidableEq

/-- `check_for_library(project_path, library_names)`: when `Package.pkg`
is missing a bare `print` of an error text and an empty list; otherwise
the libraries whose names occur in the file's content. -/
def check_for_library (pkgExists : Bool) (pkgContent : List Char)
    (pkgFile : String) (library_names : List (List Char)) :
    List (List Char) × List OutMsg :=
  if pkgExists = false then
    ([], [OutMsg.plain ("Error: Could not find Package.pkg file in: " ++ pkgFile)])
  else
    (library_names.filter (fun lib => occursIn lib pkgContent), [])

/-- Whether `ask_user`'s answer makes `main` continue:
`proceed in ("", "y")`. -/
def answerIsYes (answer : String) : Bool :=
  answer = "" || answer = "y"

/-- The control flow of `main` after the project path and `.apj` file were
validated: library detection, the confirmation prompt (modeled by the
`answer` the user gives), and either the cancellation `return` or the
replacement phase (summarized as `proceeded`; both return normally). -/
def main_library_gate (pkgExists : Bool) (pkgContent : List Char)
    (pkgFile : String) (answer : String) : RunOutcome × List OutMsg :=
  if (check_for_library pkgExists pkgContent pkgFile
      ["McAxis".toList, "MpAxis".toList, "McBase".toList, "McAcpAx".toList,
        "McAcpTrak".toList, "McAcpAx".toList]).1 = [] then
    if answerIsYes answer then
      (RunOutcome.proceeded,
        (check_for_library pkgExists pkgContent pkgFile
          ["McAxis".toList, "MpAxis".toList, "McBase".toList, "McAcpAx".toList,
            "McAcpTrak".toList, "McAcpAx".toList]).2 ++
          [OutMsg.plain "None of the libraries supported by the script were found."])
    else
      (RunOutcome.cancelled,
        (check_for_library pkgExists pkgContent pkgFile
          ["McAxis".toList, "MpAxis".toList, "McBase".toList, "McAcpAx".toList,
            "McAcpTrak".toList, "McAcpAx".toList]).2 ++
          [OutMsg.plain "None of the libraries supported by the script were found.",
            OutMsg.plain "Operation cancelled. No changes were made."])
  else
    if answerIsYes answer then
      (RunOutcome.proceeded,
        (check_for_library pkgExists pkgContent pkgFile
          ["McAxis".toList, "MpAxis".toList, "McBase".toList, "McAcpAx".toList,
            "McAcpTrak".toList, "McAcpAx".toList]).2 ++
          [OutMsg.plain "Libraries found."])
    else
      (RunOutcome.cancelled,
        (check_for_library pkgExists pkgContent pkgFile
          ["McAxis".toList, "MpAxis".toList, "McBase".toList, "McAcpAx".toList,
            "McAcpTrak".toList, "McAcpAx".toList]).2 ++
          [OutMsg.plain "Libraries found.",
            OutMsg.plain "Operation cancelled. No changes were made."])

/-- `main` from the start: `utils.get_and_check_project_file` exits with
code 1 and an ERROR-severity log when the project path does not exist or
contains no `.apj` file; otherwise the run reaches the library gate. -/
def main_model (pathExists apjPresent pkgExists : Bool) (pkgContent : List Char)
    (pkgFile : String) (answer : String) : RunOutcome × List OutMsg :=
  if pathExists = false then
    (RunOutcome.exitFailure 1,
      [OutMsg.logged "The provided project path does not exist" "ERROR"])
  else if apjPresent = false then
    (RunOutcome.exitFailure 1,
      [OutMsg.logged "No .apj file found in the provided path" "ERROR"])
  else
    main_library_gate pkgExists pkgContent pkgFile answer

/-- Whether a console message is an ERROR-severity log call. -/
def isErrorLog : OutMsg → Bool
  | OutMsg.plain _ => false
  | OutMsg.logged _ sev => sev = "ERROR"

/-! ## Lemmas about the substitution scans -/

theorem startsWithL_iff (p : List Char) :
    ∀ s, startsWithL p s = true ↔ ∃ t, s = p ++ t := by
  induction p with
  | nil =>
    intro s
    simp [startsWithL]
  | cons x xs ih =>
    intro s
    cases s with
    | nil =>
      simp [startsWithL]
    | cons c cs =>
      simp only [startsWithL, Bool.and_eq_true, beq_iff_eq, ih]
      constructor
      · rintro ⟨rfl, t, rfl⟩
        exact ⟨t, rfl⟩
      · rintro ⟨t, ht⟩
        cases ht
        exact ⟨rfl, t, rfl⟩

theorem occursIn_iff (p : List Char) :
    ∀ s, occursIn p s = true ↔ ∃ u v, s = u ++ p ++ v := by
  intro s
  induction s with
  | nil =>
    simp only [occursIn, startsWithL_iff]
    constructor
    · rintro ⟨t, ht⟩
      exact ⟨[], t, ht⟩
    · rintro ⟨u, v, huv⟩
      rcases List.append_eq_nil.mp huv.symm with ⟨hup, hv⟩
      rcases List.append_eq_nil.mp hup with ⟨hu, hp⟩
      exact ⟨[], by simp [hp]⟩
  | cons c cs ih =>
    simp only [occursIn, Bool.or_eq_true, startsWithL_iff, ih]
    constructor
    · rintro (⟨t, ht⟩ | ⟨u, v, huv⟩)
      · exact ⟨[], t, by simp [ht]⟩
      · exact ⟨c :: u, v, by simp [huv]⟩
    · rintro ⟨u, v, huv⟩
      cases u with
      | nil => exact Or.inl ⟨v, by simpa using huv⟩
      | cons b bs =>
        simp only [List.cons_append] at huv
        exact Or.inr ⟨bs, v, by simp_all⟩

theorem occursIn_cons_false {p s : List Char} {c : Char}
    (h : occursIn p s = false) : occursIn (c :: p) s = false := by
  by_contra hne
  have h1 : occursIn (c :: p) s = true := by
    cases h2 : occursIn (c :: p) s
    · exact absurd h2 hne
    · rfl
  rcases (occursIn_iff (c :: p) s).mp h1 with ⟨u, v, huv⟩
  have : occursIn p s = true := by
    refine (occursIn_iff p s).mpr ⟨u ++ [c], v, ?_⟩
    simp [huv]
  simp [this] at h

theorem occursIn_tail_false {p s : List Char} {c : Char}
    (h : occursIn p (c :: s) = false) :
    startsWithL p (c :: s) = false ∧ occursIn p s = false := by
  have := h
  simp only [occursIn, Bool.or_eq_false_iff] at this
  exact this

theorem subnLitF_of_not_occurs (pat repl : List Char) :
    ∀ f s, occursIn pat s = false → subnLitF pat repl f s = (s, 0) := by
  intro f
  induction f with
  | zero => intro s _; rfl
  | succ f ih =>
    intro s h
    cases s with
    | nil => rfl
    | cons c rest =>
      rcases occursIn_tail_false h with ⟨h1, h2⟩
      simp [subnLitF, h1, ih rest h2]

theorem containsWBF_of_not_occurs (pat : List Char) :
    ∀ f prev s, occursIn pat s = false → containsWBF pat f prev s = false := by
  intro f
  induction f with
  | zero => intro prev s _; rfl
  | succ f ih =>
    intro prev s h
    cases s with
    | nil => rfl
    | cons c rest =>
      rcases occursIn_tail_false h with ⟨h1, h2⟩
      simp only [containsWBF, h1, Bool.and_false, Bool.false_and, Bool.false_or]
      exact ih (some c) rest h2

theorem subnWBF_of_not_containsWBF (pat repl : List Char) :
    ∀ f prev s, containsWBF pat f prev s = false →
      subnWBF pat repl f prev s = (s, 0) := by
  intro f
  induction f with
  | zero => intro prev s _; rfl
  | succ f ih =>
    intro prev s h
    cases s with
    | nil => rfl
    | cons c rest =>
      simp only [containsWBF, Bool.or_eq_false_iff] at h
      simp only [subnWBF]
      rw [h.1]
      simp [ih (some c) rest h.2]

theorem subnWB_of_not_containsWB {pat s : List Char} (repl : List Char)
    (h : containsWB pat s = false) : subnWB pat repl s = (s, 0) :=
  subnWBF_of_not_containsWBF pat repl s.length none s h

theorem subnWB_of_not_occurs {pat s : List Char} (repl : List Char)
    (h : occursIn pat s = false) : subnWB pat repl s = (s, 0) :=
  subnWB_of_not_containsWB repl (containsWBF_of_not_occurs pat s.length none s h)

theorem subnLit_of_not_occurs {pat s : List Char} (repl : List Char)
    (h : occursIn pat s = false) : subnLit pat repl s = (s, 0) :=
  subnLitF_of_not_occurs pat repl s.length s h

theorem subnWBF_pos_occurs (pat repl : List Char) :
    ∀ f prev s, 0 < (subnWBF pat repl f prev s).2 →
      occursIn repl (subnWBF pat repl f prev s).1 = true := by
  intro f
  induction f with
  | zero => intro prev s h; simp [subnWBF] at h
  | succ f ih =>
    intro prev s h
    cases s with
    | nil => simp [subnWBF] at h
    | cons c rest =>
      by_cases hc : (!pat.isEmpty && startsWithL pat (c :: rest) && bOk prev pat.head? &&
          bOk pat.getLast? ((c :: rest).drop pat.length).head?) = true
      · have hred : subnWBF pat repl (f + 1) prev (c :: rest)
            = (repl ++ (subnWBF pat repl f pat.getLast? ((c :: rest).drop pat.length)).1,
              (subnWBF pat repl f pat.getLast? ((c :: rest).drop pat.length)).2 + 1) := by
          simp only [subnWBF]
          rw [if_pos hc]
        rw [hred]
        exact (occursIn_iff _ _).mpr
          ⟨[], (subnWBF pat repl f pat.getLast? ((c :: rest).drop pat.length)).1, by simp⟩
      · have hcf : (!pat.isEmpty && startsWithL pat (c :: rest) && bOk prev pat.head? &&
            bOk pat.getLast? ((c :: rest).drop pat.length).head?) = false := by
          cases hb : (!pat.isEmpty && startsWithL pat (c :: rest) && bOk prev pat.head? &&
              bOk pat.getLast? ((c :: rest).drop pat.length).head?)
          · rfl
          · exact absurd hb hc
        have hred : subnWBF pat repl (f + 1) prev (c :: rest)
            = (c :: (subnWBF pat repl f (some c) rest).1,
              (subnWBF pat repl f (some c) rest).2) := by
          simp only [subnWBF]
          rw [hcf]
          simp
        rw [hred] at h ⊢
        have := ih (some c) rest h
        simp only [occursIn, this, Bool.or_true]

/-! ## Pass-level lemmas -/

theorem applyEnumMapping_aux (content : List Char) :
    ∀ (m : List (List Char × List Char)),
      (∀ kv ∈ m, occursIn kv.1 content = false) → ∀ n,
      m.foldl (fun acc kv =>
        let r := subnLit kv.1 kv.2 acc.1
        (r.1, acc.2 + r.2)) (content, n) = (content, n) := by
  intro m
  induction m with
  | nil => intro _ n; rfl
  | cons kv m' ih =>
    intro h n
    have h1 : subnLit kv.1 kv.2 content = (content, 0) :=
      subnLit_of_not_occurs kv.2 (h kv (List.mem_cons_self kv m'))
    simp only [List.foldl_cons, h1]
    exact ih (fun kv' hkv' => h kv' (List.mem_cons_of_mem kv hkv')) n

theorem applyEnumMapping_of_not_occurs {m : List (List Char × List Char)}
    {content : List Char} (h : ∀ kv ∈ m, occursIn kv.1 content = false) :
    applyEnumMapping m content = (content, 0) :=
  applyEnumMapping_aux content m h 0

theorem applyInputMapping_aux (content : List Char) :
    ∀ (m : List (List Char × List Char)),
      (∀ kv ∈ m, occursIn kv.1 content = false) → ∀ n,
      m.foldl (fun acc kv =>
        let r := inputPairSub kv.1 kv.2 acc.1
        (r.1, acc.2 + r.2)) (content, n) = (content, n) := by
  intro m
  induction m with
  | nil => intro _ n; rfl
  | cons kv m' ih =>
    intro h n
    have h0 : occursIn ('.' :: kv.1) content = false :=
      occursIn_cons_false (h kv (List.mem_cons_self kv m'))
    have h1 : inputPairSub kv.1 kv.2 content = (content, 0) :=
      subnWB_of_not_occurs ('.' :: kv.2) h0
    simp only [List.foldl_cons, h1]
    exact ih (fun kv' hkv' => h kv' (List.mem_cons_of_mem kv hkv')) n

theorem applyInputMapping_of_not_occurs {m : List (List Char × List Char)}
    {content : List Char} (h : ∀ kv ∈ m, occursIn kv.1 content = false) :
    applyInputMapping m content = (content, 0) :=
  applyInputMapping_aux content m h 0

theorem applyWbMapping_aux (content : List Char) :
    ∀ (m : List (List Char × List Char)),
      (∀ kv ∈ m, occursIn kv.1 content = false) → ∀ n,
      m.foldl (fun acc kv =>
        let r := subnWB kv.1 kv.2 acc.1
        (r.1, acc.2 + r.2)) (content, n) = (content, n) := by
  intro m
  induction m with
  | nil => intro _ n; rfl
  | cons kv m' ih =>
    intro h n
    have h1 : subnWB kv.1 kv.2 content = (content, 0) :=
      subnWB_of_not_occurs kv.2 (h kv (List.mem_cons_self kv m'))
    simp only [List.foldl_cons, h1]
    exact ih (fun kv' hkv' => h kv' (List.mem_cons_of_mem kv hkv')) n

theorem applyWbMapping_of_not_occurs {m : List (List Char × List Char)}
    {content : List Char} (h : ∀ kv ∈ m, occursIn kv.1 content = false) :
    applyWbMapping m content = (content, 0) :=
  applyWbMapping_aux content m h 0

theorem removalMessages_of_not_occurs {m : List (List Char × List Char)}
    {content : List Char} (h : ∀ kv ∈ m, occursIn kv.1 content = false) :
    removalMessages m content = [] := by
  induction m with
  | nil => rfl
  | cons kv m' ih =>
    have h1 : containsWB kv.1 content = false :=
      containsWBF_of_not_occurs kv.1 content.length none content
        (h kv (List.mem_cons_self kv m'))
    simp only [removalMessages, List.flatMap_cons, h1, if_false]
    simpa [removalMessages] using ih (fun kv' hkv' => h kv' (List.mem_cons_of_mem kv hkv'))

theorem replace_enums_of_not_occurs (hash : List Char → Nat)
    {m : List (List Char × List Char)} {content : List Char}
    (h : ∀ kv ∈ m, occursIn kv.1 content = false) :
    replace_enums hash content m = ⟨0, false, content, false⟩ := by
  have hm := applyEnumMapping_of_not_occurs h
  simp [replace_enums, hm]

theorem replace_inputs_of_not_occurs (hash : List Char → Nat)
    {m : List (List Char × List Char)} {content : List Char}
    (h : ∀ kv ∈ m, occursIn kv.1 content = false) :
    replace_inputs hash content m = ⟨0, false, content, false⟩ := by
  have hm := applyInputMapping_of_not_occurs h
  simp [replace_inputs, hm]

theorem replace_fbs_and_types_of_not_occurs (hash : List Char → Nat)
    {fbm tym rmm : List (List Char × List Char)} {content : List Char}
    (hfb : ∀ kv ∈ fbm, occursIn kv.1 content = false)
    (hty : ∀ kv ∈ tym, occursIn kv.1 content = false)
    (hrm : ∀ kv ∈ rmm, occursIn kv.1 content = false) :
    replace_fbs_and_types hash content fbm tym rmm
      = ⟨0, 0, false, content, false, []⟩ := by
  have h1 := applyWbMapping_of_not_occurs hfb
  have h2 := applyWbMapping_of_not_occurs hty
  have h3 := removalMessages_of_not_occurs hrm
  simp [replace_fbs_and_types, h1, h2, h3]

/-! ## Lemmas about the scanner model -/

theorem insertOrReplace_of_fresh {α : Type} {m : List (String × α)} {k : String}
    (v : α) (h : ∀ kv ∈ m, kv.1 ≠ k) : insertOrReplace m k v = m ++ [(k, v)] := by
  have hany : m.any (fun kv => decide (kv.1 = k)) = false := by
    simp only [List.any_eq_false, decide_eq_true_eq]
    exact h
  simp [insertOrReplace, hany]

theorem foldl_insertOrReplace {α : Type}
    (g : (String × (List Char → List α)) → List α) :
    ∀ (funcs : List (String × (List Char → List α)))
      (acc : List (String × List α)),
      (funcs.map Prod.fst).Nodup →
      (∀ nf ∈ funcs, ∀ kv ∈ acc, kv.1 ≠ nf.1) →
      funcs.foldl (fun acc nf => insertOrReplace acc nf.1 (g nf)) acc
        = acc ++ funcs.map (fun nf => (nf.1, g nf)) := by
  intro funcs
  induction funcs with
  | nil => intro acc _ _; simp
  | cons nf fs ih =>
    intro acc hnd hdisj
    have hstep : insertOrReplace acc nf.1 (g nf) = acc ++ [(nf.1, g nf)] :=
      insertOrReplace_of_fresh (g nf) (hdisj nf (List.mem_cons_self nf fs))
    have hnd' : (fs.map Prod.fst).Nodup := by
      simpa using hnd.of_cons
    have hnotin : nf.1 ∉ fs.map Prod.fst := by
      have := hnd
      simp only [List.map_cons, List.nodup_cons] at this
      exact this.1
    have hdisj' : ∀ nf' ∈ fs, ∀ kv ∈ acc ++ [(nf.1, g nf)], kv.1 ≠ nf'.1 := by
      intro nf' hnf' kv hkv
      rcases List.mem_append.mp hkv with hkv | hkv
      · exact hdisj nf' (List.mem_cons_of_mem nf hnf') kv hkv
      · rcases List.mem_singleton.mp hkv with rfl
        intro hcontra
        exact hnotin (hcontra ▸ List.mem_map_of_mem Prod.fst hnf')
    simp only [List.foldl_cons, hstep, ih _ hnd' hdisj', List.map_cons]
    simp

theorem initResults_eq {α : Type} {funcs : List (String × (List Char → List α))}
    (h : (funcs.map Prod.fst).Nodup) :
    initResults funcs = funcs.map (fun nf => (nf.1, ([] : List α))) := by
  have := foldl_insertOrReplace (fun _ => ([] : List α)) funcs [] h (by simp)
  simpa [initResults] using this

theorem fileResults_eq {α : Type} {funcs : List (String × (List Char → List α))}
    (path : List Char) (h : (funcs.map Prod.fst).Nodup) :
    fileResults funcs path = funcs.map (fun nf => (nf.1, nf.2 path)) := by
  have := foldl_insertOrReplace (fun nf => nf.2 path) funcs [] h (by simp)
  simpa [fileResults] using this

theorem extendAssoc_append {α : Type} (m₁ m₂ : List (String × List α))
    (k : String) (r : List α) :
    extendAssoc (m₁ ++ m₂) k r = extendAssoc m₁ k r ++ extendAssoc m₂ k r := by
  simp [extendAssoc]

theorem extendAssoc_of_fresh {α : Type} {m : List (String × List α)} {k : String}
    (r : List α) (h : ∀ kv ∈ m, kv.1 ≠ k) : extendAssoc m k r = m := by
  induction m with
  | nil => rfl
  | cons kv m' ih =>
    have h1 : kv.1 ≠ k := h kv (List.mem_cons_self kv m')
    simp only [extendAssoc, List.map_cons, if_neg h1]
    have := ih (fun kv' hkv' => h kv' (List.mem_cons_of_mem kv hkv'))
    simpa [extendAssoc] using this

theorem fileFold_eq {α : Type} (path : List Char)
    (A : (String × (List Char → List α)) → List α) :
    ∀ (funcs : List (String × (List Char → List α)))
      (pre : List (String × List α)),
      (funcs.map Prod.fst).Nodup →
      (∀ nf ∈ funcs, ∀ kv ∈ pre, kv.1 ≠ nf.1) →
      (funcs.map (fun nf => (nf.1, nf.2 path))).foldl
          (fun r kv => extendAssoc r kv.1 kv.2)
          (pre ++ funcs.map (fun nf => (nf.1, A nf)))
        = pre ++ funcs.map (fun nf => (nf.1, A nf ++ nf.2 path)) := by
  intro funcs
  induction funcs with
  | nil => intro pre _ _; simp
  | cons nf fs ih =>
    intro pre hnd hdisj
    have hnd' : (fs.map Prod.fst).Nodup := by
      simpa using hnd.of_cons
    have hnotin : nf.1 ∉ fs.map Prod.fst := by
      have := hnd
      simp only [List.map_cons, List.nodup_cons] at this
      exact this.1
    have hpre : extendAssoc pre nf.1 (nf.2 path) = pre :=
      extendAssoc_of_fresh _ (fun kv hkv => hdisj nf (List.mem_cons_self nf fs) kv hkv)
    have hfs : extendAssoc (fs.map (fun nf' => (nf'.1, A nf'))) nf.1 (nf.2 path)
        = fs.map (fun nf' => (nf'.1, A nf')) := by
      refine extendAssoc_of_fresh _ ?_
      intro kv hkv
      rcases List.mem_map.mp hkv with ⟨nf', hnf', rfl⟩
      intro hcontra
      exact hnotin (hcontra ▸ List.mem_map_of_mem Prod.fst hnf')
    have hstep : extendAssoc (pre ++ (nf.1, A nf) :: fs.map (fun nf' => (nf'.1, A nf')))
        nf.1 (nf.2 path)
        = (pre ++ [(nf.1, A nf ++ nf.2 path)]) ++ fs.map (fun nf' => (nf'.1, A nf')) := by
      have : (nf.1, A nf) :: fs.map (fun nf' => (nf'.1, A nf'))
          = [(nf.1, A nf)] ++ fs.map (fun nf' => (nf'.1, A nf')) := by simp
      rw [this, ← List.append_assoc, extendAssoc_append, extendAssoc_append, hpre, hfs]
      simp [extendAssoc]
    have hdisj' : ∀ nf' ∈ fs, ∀ kv ∈ pre ++ [(nf.1, A nf ++ nf.2 path)], kv.1 ≠ nf'.1 := by
      intro nf' hnf' kv hkv
      rcases List.mem_append.mp hkv with hkv | hkv
      · exact hdisj nf' (List.mem_cons_of_mem nf hnf') kv hkv
      · rcases List.mem_singleton.mp hkv with rfl
        intro hcontra
        exact hnotin (hcontra ▸ List.mem_map_of_mem Prod.fst hnf')
    simp only [List.map_cons, List.foldl_cons, hstep]
    have := ih (pre ++ [(nf.1, A nf ++ nf.2 path)]) hnd' hdisj'
    rw [List.append_assoc] at this ⊢
    simpa using this

theorem scanFold_eq {α : Type} {funcs : List (String × (List Char → List α))}
    (hnd : (funcs.map Prod.fst).Nodup) :
    ∀ (completed : List (List Char)) (A : (String × (List Char → List α)) → List α),
      completed.foldl
          (fun res path =>
            (fileResults funcs path).foldl (fun r kv => extendAssoc r kv.1 kv.2) res)
          (funcs.map (fun nf => (nf.1, A nf)))
        = funcs.map (fun nf => (nf.1, A nf ++ completed.flatMap nf.2)) := by
  intro completed
  induction completed with
  | nil =>
    intro A
    simp
  | cons p cs ih =>
    intro A
    simp only [List.foldl_cons]
    rw [fileResults_eq p hnd]
    have hstep := fileFold_eq p A funcs [] hnd (by simp)
    simp only [List.nil_append] at hstep
    rw [hstep, ih (fun nf => A nf ++ nf.2 p)]
    simp

theorem scan_files_parallel_multi_eq {α : Type}
    {funcs : List (String × (List Char → List α))}
    (hnd : (funcs.map Prod.fst).Nodup) (completed : List (List Char)) :
    scan_files_parallel_multi funcs completed
      = funcs.map (fun nf => (nf.1, completed.flatMap nf.2)) := by
  unfold scan_files_parallel_multi
  rw [initResults_eq hnd]
  have := scanFold_eq hnd completed (fun _ => [])
  simpa using this

theorem lookupAssoc_map_eq {α : Type}
    (g : (String × (List Char → List α)) → List α) :
    ∀ (funcs : List (String × (List Char → List α)))
      (nf : String × (List Char → List α)),
      (funcs.map Prod.fst).Nodup → nf ∈ funcs →
      lookupAssoc nf.1 (funcs.map (fun nf' => (nf'.1, g nf'))) = some (g nf) := by
  intro funcs
  induction funcs with
  | nil => intro nf _ h; simp at h
  | cons nf' fs ih =>
    intro nf hnd hmem
    have hnotin : nf'.1 ∉ fs.map Prod.fst := by
      have := hnd
      simp only [List.map_cons, List.nodup_cons] at this
      exact this.1
    by_cases heq : nf'.1 = nf.1
    · have hnf : nf = nf' := by
        rcases List.mem_cons.mp hmem with rfl | hmem'
        · rfl
        · exact absurd (heq ▸ List.mem_map_of_mem Prod.fst hmem') hnotin
      subst hnf
      simp [lookupAssoc, List.find?]
    · have hmem' : nf ∈ fs := by
        rcases List.mem_cons.mp hmem with rfl | hmem'
        · exact absurd rfl heq
        · exact hmem'
      have hnd' : (fs.map Prod.fst).Nodup := by
        simpa using hnd.of_cons
      have := ih nf hnd' hmem'
      simp only [lookupAssoc, List.map_cons, List.find?]
      have hne : (decide (nf'.1 = nf.1)) = false := by
        simp [heq]
      rw [hne]
      exact this

theorem scan_files_parallel_single_eq {α : Type}
    (nf : String × (List Char → List α)) (completed : List (List Char)) :
    scan_files_parallel_single nf completed = completed.flatMap nf.2 := by
  unfold scan_files_parallel_single
  rw [scan_files_parallel_multi_eq (by simp) completed]
  simp [lookupAssoc, List.find?]

theorem count_one_of_nodup_mem {p : List Char} :
    ∀ {files : List (List Char)}, files.Nodup → p ∈ files → List.count p files = 1 := by
  intro files
  induction files with
  | nil => intro _ h; simp at h
  | cons q fs ih =>
    intro hnd hmem
    rcases List.mem_cons.mp hmem with rfl | hmem'
    · have hnotin : p ∉ fs := (List.nodup_cons.mp hnd).1
      rw [List.count_cons, List.count_eq_zero.mpr hnotin]
      simp
    · have hne : q ≠ p := by
        rintro rfl
        exact (List.nodup_cons.mp hnd).1 hmem'
      rw [List.count_cons, ih (List.nodup_cons.mp hnd).2 hmem']
      simp [hne]

theorem count_filePathsOf {files : List (List Char)} {p : List Char}
    (hnd : files.Nodup) (hmem : p ∈ files) :
    ∀ exts : List (List Char),
      (filePathsOf files exts).count p
        = exts.countP (fun e => endsWithL (basename p) e) := by
  intro exts
  induction exts with
  | nil => simp [filePathsOf]
  | cons e es ih =>
    have hsplit : filePathsOf files (e :: es)
        = files.filter (fun q => endsWithL (basename q) e) ++ filePathsOf files es := by
      simp [filePathsOf]
    rw [hsplit, List.count_append, ih, List.countP_cons]
    by_cases he : endsWithL (basename p) e = true
    · have hcf : List.count p (List.filter (fun q => endsWithL (basename q) e) files)
          = List.count p files := List.count_filter he
      rw [hcf, count_one_of_nodup_mem hnd hmem]
      simp [he, Nat.add_comm]
    · have hb : endsWithL (basename p) e = false := by
        cases hx : endsWithL (basename p) e
        · rfl
        · exact absurd hx he
      have hnotin : p ∉ files.filter (fun q => endsWithL (basename q) e) := by
        intro hcontra
        have := List.of_mem_filter hcontra
        rw [hb] at this
        exact Bool.false_ne_true this
      rw [List.count_eq_zero.mpr hnotin]
      simp [hb]

/-! ## Lemmas about sorting and the match-record set -/

/-- The ordering proposition underlying `lexLe`. -/
def LeB (a b : List Char) : Prop := lexLe a b = true

theorem lexLe_total : ∀ a b : List Char, lexLe a b = true ∨ lexLe b a = true := by
  intro a
  induction a with
  | nil => intro b; exact Or.inl rfl
  | cons x xs ih =>
    intro b
    cases b with
    | nil => exact Or.inr rfl
    | cons y ys =>
      by_cases h1 : x.toNat < y.toNat
      · left
        simp [lexLe, h1]
      · by_cases h2 : y.toNat < x.toNat
        · right
          simp [lexLe, h2]
        · rcases ih ys with h | h
          · left
            simp [lexLe, h1, h2, h]
          · right
            simp [lexLe, h1, h2, h]

theorem lexLe_trans :
    ∀ a b c : List Char, lexLe a b = true → lexLe b c = true → lexLe a c = true := by
  intro a
  induction a with
  | nil => intro b c _ _; rfl
  | cons x xs ih =>
    intro b c hab hbc
    cases b with
    | nil => simp [lexLe] at hab
    | cons y ys =>
      cases c with
      | nil => simp [lexLe] at hbc
      | cons z zs =>
        by_cases hxy : x.toNat < y.toNat
        · by_cases hyz : y.toNat < z.toNat
          · have hxz : x.toNat < z.toNat := Nat.lt_trans hxy hyz
            simp [lexLe, hxz]
          · by_cases hzy : z.toNat < y.toNat
            · simp [lexLe, hyz, hzy] at hbc
            · have hyzeq : y.toNat = z.toNat := Nat.le_antisymm
                (Nat.le_of_not_lt hzy) (Nat.le_of_not_lt hyz)
              have hxz : x.toNat < z.toNat := hyzeq ▸ hxy
              simp [lexLe, hxz]
        · by_cases hyx : y.toNat < x.toNat
          · simp [lexLe, hxy, hyx] at hab
          · have hxyeq : x.toNat = y.toNat := Nat.le_antisymm
              (Nat.le_of_not_lt hyx) (Nat.le_of_not_lt hxy)
            have hab' : lexLe xs ys = true := by
              simpa [lexLe, hxy, hyx] using hab
            by_cases hyz : y.toNat < z.toNat
            · have hxz : x.toNat < z.toNat := hxyeq ▸ hyz
              simp [lexLe, hxz]
            · by_cases hzy : z.toNat < y.toNat
              · simp [lexLe, hyz, hzy] at hbc
              · have hbc' : lexLe ys zs = true := by
                  simpa [lexLe, hyz, hzy] using hbc
                have hyzeq : y.toNat = z.toNat := Nat.le_antisymm
                  (Nat.le_of_not_lt hzy) (Nat.le_of_not_lt hyz)
                have hxz1 : ¬x.toNat < z.toNat := by omega
                have hzx1 : ¬z.toNat < x.toNat := by omega
                simp only [lexLe, if_neg hxz1, if_neg hzx1]
                exact ih ys zs hab' hbc'

theorem insertSorted_perm (x : List Char) :
    ∀ l : List (List Char), (insertSorted x l).Perm (x :: l) := by
  intro l
  induction l with
  | nil => exact List.Perm.refl _
  | cons y ys ih =>
    by_cases h : lexLe x y = true
    · simp [insertSorted, h]
    · have hred : insertSorted x (y :: ys) = y :: insertSorted x ys := by
        simp [insertSorted, h]
      rw [hred]
      exact (List.Perm.cons y ih).trans (List.Perm.swap x y ys)

theorem mem_insertSorted {x y : List Char} {l : List (List Char)} :
    y ∈ insertSorted x l ↔ y = x ∨ y ∈ l := by
  rw [(insertSorted_perm x l).mem_iff]
  simp

theorem pairwise_insertSorted {x : List Char} :
    ∀ {l : List (List Char)}, List.Pairwise LeB l →
      List.Pairwise LeB (insertSorted x l) := by
  intro l
  induction l with
  | nil => intro _; simp [insertSorted, LeB]
  | cons y ys ih =>
    intro h
    rcases List.pairwise_cons.mp h with ⟨hy, hys⟩
    by_cases hxy : lexLe x y = true
    · have hred : insertSorted x (y :: ys) = x :: y :: ys := by
        simp [insertSorted, hxy]
      rw [hred]
      refine List.pairwise_cons.mpr ⟨?_, h⟩
      intro z hz
      rcases List.mem_cons.mp hz with rfl | hz'
      · exact hxy
      · exact lexLe_trans x y z hxy (hy z hz')
    · have hyx : lexLe y x = true := by
        rcases lexLe_total x y with h1 | h1
        · exact absurd h1 hxy
        · exact h1
      have hred : insertSorted x (y :: ys) = y :: insertSorted x ys := by
        simp [insertSorted, hxy]
      rw [hred]
      refine List.pairwise_cons.mpr ⟨?_, ih hys⟩
      intro z hz
      rcases mem_insertSorted.mp hz with rfl | hz'
      · exact hyx
      · exact hy z hz'

theorem sortConfigs_perm : ∀ l : List (List Char), (sortConfigs l).Perm l := by
  intro l
  induction l with
  | nil => exact List.Perm.refl _
  | cons x xs ih =>
    have hred : sortConfigs (x :: xs) = insertSorted x (sortConfigs xs) := rfl
    rw [hred]
    exact (insertSorted_perm x (sortConfigs xs)).trans (List.Perm.cons x ih)

theorem sortConfigs_pairwise : ∀ l : List (List Char),
    List.Pairwise LeB (sortConfigs l) := by
  intro l
  induction l with
  | nil => exact List.Pairwise.nil
  | cons x xs ih => exact pairwise_insertSorted ih

theorem mem_insertIfAbsent {β : Type} [DecidableEq β] {l : List β} {x y : β} :
    y ∈ insertIfAbsent l x ↔ y ∈ l ∨ y = x := by
  by_cases h : x ∈ l
  · simp only [insertIfAbsent, if_pos h]
    constructor
    · exact Or.inl
    · rintro (hy | rfl)
      · exact hy
      · exact h
  · simp [insertIfAbsent, if_neg h]

theorem nodup_insertIfAbsent {β : Type} [DecidableEq β] {l : List β} {x : β}
    (h : l.Nodup) : (insertIfAbsent l x).Nodup := by
  by_cases hx : x ∈ l
  · simpa [insertIfAbsent, if_pos hx] using h
  · simp only [insertIfAbsent, if_neg hx]
    exact List.Nodup.append h (List.nodup_singleton x) (by simpa using hx)

theorem hwInner_mem {t p : List Char} {y : List Char × List Char × List Char} :
    ∀ (hd : List (List Char × List (List Char)))
      (acc : List (List Char × List Char × List Char)),
      (y ∈ hd.foldl
          (fun rs rim =>
            if t ∈ rim.2 then insertIfAbsent rs (t, rim.1, p) else rs) acc)
        ↔ y ∈ acc ∨ ∃ rim ∈ hd, t ∈ rim.2 ∧ y = (t, rim.1, p) := by
  intro hd
  induction hd with
  | nil => intro acc; simp
  | cons rim hd' ih =>
    intro acc
    simp only [List.foldl_cons]
    by_cases hmem : t ∈ rim.2
    · rw [if_pos hmem, ih]
      simp only [mem_insertIfAbsent]
      constructor
      · rintro ((hy | rfl) | ⟨rim', hrim', hmem', rfl⟩)
        · exact Or.inl hy
        · exact Or.inr ⟨rim, List.mem_cons_self rim hd', hmem, rfl⟩
        · exact Or.inr ⟨rim', List.mem_cons_of_mem rim hrim', hmem', rfl⟩
      · rintro (hy | ⟨rim', hrim', hmem', rfl⟩)
        · exact Or.inl (Or.inl hy)
        · rcases List.mem_cons.mp hrim' with rfl | hrim''
          · exact Or.inl (Or.inr rfl)
          · exact Or.inr ⟨rim', hrim'', hmem', rfl⟩
    · rw [if_neg hmem, ih]
      constructor
      · rintro (hy | ⟨rim', hrim', hmem', rfl⟩)
        · exact Or.inl hy
        · exact Or.inr ⟨rim', List.mem_cons_of_mem rim hrim', hmem', rfl⟩
      · rintro (hy | ⟨rim', hrim', hmem', rfl⟩)
        · exact Or.inl hy
        · rcases List.mem_cons.mp hrim' with rfl | hrim''
          · exact absurd hmem' hmem
          · exact Or.inr ⟨rim', hrim'', hmem', rfl⟩

theorem hwInner_nodup {t p : List Char} :
    ∀ (hd : List (List Char × List (List Char)))
      (acc : List (List Char × List Char × List Char)),
      acc.Nodup →
      (hd.foldl
          (fun rs rim =>
            if t ∈ rim.2 then insertIfAbsent rs (t, rim.1, p) else rs) acc).Nodup := by
  intro hd
  induction hd with
  | nil => intro acc h; exact h
  | cons rim hd' ih =>
    intro acc h
    simp only [List.foldl_cons]
    by_cases hmem : t ∈ rim.2
    · rw [if_pos hmem]
      exact ih _ (nodup_insertIfAbsent h)
    · rw [if_neg hmem]
      exact ih _ h

theorem hwOuter_mem {p : List Char} {hd : List (List Char × List (List Char))}
    {y : List Char × List Char × List Char} :
    ∀ (ts : List (List Char)) (acc : List (List Char × List Char × List Char)),
      (y ∈ ts.foldl
          (fun results hw_type =>
            hd.foldl
              (fun rs rim =>
                if hw_type ∈ rim.2 then insertIfAbsent rs (hw_type, rim.1, p) else rs)
              results) acc)
        ↔ y ∈ acc ∨ ∃ t ∈ ts, ∃ rim ∈ hd, t ∈ rim.2 ∧ y = (t, rim.1, p) := by
  intro ts
  induction ts with
  | nil => intro acc; simp
  | cons t ts' ih =>
    intro acc
    simp only [List.foldl_cons]
    rw [ih, hwInner_mem]
    constructor
    · rintro ((hy | ⟨rim, hrim, hmem, rfl⟩) | ⟨t', ht', rim, hrim, hmem, rfl⟩)
      · exact Or.inl hy
      · exact Or.inr ⟨t, List.mem_cons_self t ts', rim, hrim, hmem, rfl⟩
      · exact Or.inr ⟨t', List.mem_cons_of_mem t ht', rim, hrim, hmem, rfl⟩
    · rintro (hy | ⟨t', ht', rim, hrim, hmem, rfl⟩)
      · exact Or.inl (Or.inl hy)
      · rcases List.mem_cons.mp ht' with rfl | ht''
        · exact Or.inl (Or.inr ⟨rim, hrim, hmem, rfl⟩)
        · exact Or.inr ⟨t', ht'', rim, hrim, hmem, rfl⟩

theorem hwOuter_nodup {p : List Char} {hd : List (List Char × List (List Char))} :
    ∀ (ts : List (List Char)) (acc : List (List Char × List Char × List Char)),
      acc.Nodup →
      (ts.foldl
          (fun results hw_type =>
            hd.foldl
              (fun rs rim =>
                if hw_type ∈ rim.2 then insertIfAbsent rs (hw_type, rim.1, p) else rs)
              results) acc).Nodup := by
  intro ts
  induction ts with
  | nil => intro acc h; exact h
  | cons t ts' ih =>
    intro acc h
    simp only [List.foldl_cons]
    exact ih _ (hwInner_nodup hd acc h)

theorem process_hw_file_nodup (file_path content : List Char)
    (hd : List (List Char × List (List Char))) :
    (process_hw_file file_path content hd).Nodup :=
  hwOuter_nodup (hwFindall content) [] List.nodup_nil

theorem process_hw_file_mem (file_path content : List Char)
    (hd : List (List Char × List (List Char)))
    (y : List Char × List Char × List Char) :
    y ∈ process_hw_file file_path content hd
      ↔ ∃ t ∈ hwFindall content, ∃ rim ∈ hd, t ∈ rim.2 ∧ y = (t, rim.1, file_path) := by
  unfold process_hw_file
  rw [hwOuter_mem]
  simp

/-! ## Lemmas about the grouping loop of `check_hardware` -/

theorem lookupGroup_none_iff {id : List Char}
    {acc : List (List Char × List Char × List (List Char))} :
    lookupGroup id acc = none ↔ acc.any (fun e => decide (e.1 = id)) = false := by
  simp only [lookupGroup, Option.map_eq_none', List.find?_eq_none, List.any_eq_false,
    decide_eq_true_eq]

theorem any_of_lookupGroup_some {id : List Char}
    {acc : List (List Char × List Char × List (List Char))}
    {pr : List Char × List (List Char)} (h : lookupGroup id acc = some pr) :
    acc.any (fun e => decide (e.1 = id)) = true := by
  rcases Option.map_eq_some.mp h with ⟨e0, he0, _⟩
  refine List.any_eq_true.mpr ⟨e0, List.mem_of_find?_eq_some he0, ?_⟩
  have := List.find?_some he0
  simpa using this

theorem find?_mapUpdate {id c : List Char} :
    ∀ (acc : List (List Char × List Char × List (List Char)))
      {e0 : List Char × List Char × List (List Char)},
      acc.find? (fun e => decide (e.1 = id)) = some e0 →
      (acc.map (fun e => if e.1 = id then (e.1, e.2.1, e.2.2 ++ [c]) else e)).find?
          (fun e => decide (e.1 = id))
        = some (e0.1, e0.2.1, e0.2.2 ++ [c]) := by
  intro acc
  induction acc with
  | nil => intro e0 h; simp at h
  | cons a tl ih =>
    intro e0 h
    by_cases ha : a.1 = id
    · have hfind : (a :: tl).find? (fun e => decide (e.1 = id)) = some a :=
        List.find?_cons_of_pos _ (by simp [ha])
      rw [hfind] at h
      cases h
      simp only [List.map_cons, if_pos ha]
      exact List.find?_cons_of_pos _ (by simp [ha])
    · have hfind : (a :: tl).find? (fun e => decide (e.1 = id))
          = tl.find? (fun e => decide (e.1 = id)) :=
        List.find?_cons_of_neg _ (by simp [ha])
      rw [hfind] at h
      simp only [List.map_cons, if_neg ha]
      rw [List.find?_cons_of_neg _ (by simp [ha])]
      exact ih h

theorem find?_append_absent {id r c : List Char} :
    ∀ (acc : List (List Char × List Char × List (List Char))),
      acc.find? (fun e => decide (e.1 = id)) = none →
      (acc ++ [(id, r, [c])]).find? (fun e => decide (e.1 = id)) = some (id, r, [c]) := by
  intro acc
  induction acc with
  | nil =>
    intro _
    exact List.find?_cons_of_pos _ (by simp)
  | cons a tl ih =>
    intro h
    have ha : ¬a.1 = id := by
      intro hcontra
      have := List.find?_eq_none.mp h a (List.mem_cons_self a tl)
      simp [hcontra] at this
    simp only [List.cons_append]
    rw [List.find?_cons_of_neg _ (by simp [ha])]
    refine ih ?_
    rw [List.find?_cons_of_neg _ (by simp [ha])] at h
    exact h

theorem find?_append_of_none {jd r : List Char} {c : List Char} {id : List Char}
    (hne : jd ≠ id) :
    ∀ (acc : List (List Char × List Char × List (List Char))),
      (acc ++ [(jd, r, [c])]).find? (fun e => decide (e.1 = id))
        = acc.find? (fun e => decide (e.1 = id)) := by
  intro acc
  induction acc with
  | nil =>
    simp only [List.nil_append, List.find?_nil]
    exact List.find?_cons_of_neg _ (by simp [hne])
  | cons a tl ih =>
    by_cases ha : a.1 = id
    · simp only [List.cons_append]
      rw [List.find?_cons_of_pos _ (by simp [ha]), List.find?_cons_of_pos _ (by simp [ha])]
    · simp only [List.cons_append]
      rw [List.find?_cons_of_neg _ (by simp [ha]), List.find?_cons_of_neg _ (by simp [ha])]
      exact ih

theorem find?_mapUpdate_ne {jd c id : List Char} (hne : jd ≠ id) :
    ∀ (acc : List (List Char × List Char × List (List Char))),
      (acc.map (fun e => if e.1 = jd then (e.1, e.2.1, e.2.2 ++ [c]) else e)).find?
          (fun e => decide (e.1 = id))
        = acc.find? (fun e => decide (e.1 = id)) := by
  intro acc
  induction acc with
  | nil => rfl
  | cons a tl ih =>
    by_cases ha : a.1 = id
    · have haj : ¬a.1 = jd := by
        rw [ha]
        intro hcontra
        exact hne hcontra.symm
      simp only [List.map_cons, if_neg haj]
      rw [List.find?_cons_of_pos _ (by simp [ha]), List.find?_cons_of_pos _ (by simp [ha])]
    · by_cases haj : a.1 = jd
      · simp only [List.map_cons, if_pos haj]
        rw [List.find?_cons_of_neg _ (by simp [ha]), List.find?_cons_of_neg _ (by simp [ha])]
        exact ih
      · simp only [List.map_cons, if_neg haj]
        rw [List.find?_cons_of_neg _ (by simp [ha]), List.find?_cons_of_neg _ (by simp [ha])]
        exact ih

theorem lookupGroup_groupInsert_self_some {id r c : List Char}
    {acc : List (List Char × List Char × List (List Char))}
    {pr : List Char × List (List Char)} (h : lookupGroup id acc = some pr) :
    lookupGroup id (groupInsert acc id r c) = some (pr.1, pr.2 ++ [c]) := by
  rcases Option.map_eq_some.mp h with ⟨e0, he0, hpr⟩
  have hany := any_of_lookupGroup_some h
  simp only [groupInsert, if_pos hany, lookupGroup]
  rw [find?_mapUpdate acc he0]
  simp [← hpr]

theorem lookupGroup_groupInsert_self_none {id r c : List Char}
    {acc : List (List Char × List Char × List (List Char))}
    (h : lookupGroup id acc = none) :
    lookupGroup id (groupInsert acc id r c) = some (r, [c]) := by
  have hany := lookupGroup_none_iff.mp h
  have hfind : acc.find? (fun e => decide (e.1 = id)) = none := by
    simp only [lookupGroup, Option.map_eq_none'] at h
    exact h
  simp only [groupInsert, hany, lookupGroup]
  rw [if_neg (by simp), find?_append_absent acc hfind]
  rfl

theorem lookupGroup_groupInsert_ne {jd id r c : List Char} (hne : jd ≠ id)
    (acc : List (List Char × List Char × List (List Char))) :
    lookupGroup id (groupInsert acc jd r c) = lookupGroup id acc := by
  by_cases hany : acc.any (fun e => decide (e.1 = jd)) = true
  · simp only [groupInsert, if_pos hany, lookupGroup]
    rw [find?_mapUpdate_ne hne acc]
  · have hany' : acc.any (fun e => decide (e.1 = jd)) = false := by
      cases hx : acc.any (fun e => decide (e.1 = jd))
      · rfl
      · exact absurd hx hany
    simp only [groupInsert, hany', lookupGroup]
    rw [if_neg (by simp), find?_append_of_none hne acc]

theorem groupInsert_keys {jd r c : List Char}
    (acc : List (List Char × List Char × List (List Char))) :
    (groupInsert acc jd r c).map (fun e => e.1)
      = if acc.any (fun e => decide (e.1 = jd)) then acc.map (fun e => e.1)
        else acc.map (fun e => e.1) ++ [jd] := by
  by_cases hany : acc.any (fun e => decide (e.1 = jd)) = true
  · simp only [groupInsert, if_pos hany, List.map_map]
    refine List.map_congr_left ?_
    intro e _
    by_cases he : e.1 = jd
    · simp [he]
    · simp [he]
  · have hany' : acc.any (fun e => decide (e.1 = jd)) = false := by
      cases hx : acc.any (fun e => decide (e.1 = jd))
      · rfl
      · exact absurd hx hany
    simp [groupInsert, hany']

theorem groupInsert_keys_nodup {jd r c : List Char}
    {acc : List (List Char × List Char × List (List Char))}
    (h : (acc.map (fun e => e.1)).Nodup) :
    ((groupInsert acc jd r c).map (fun e => e.1)).Nodup := by
  rw [groupInsert_keys acc]
  by_cases hany : acc.any (fun e => decide (e.1 = jd)) = true
  · rw [if_pos hany]
    exact h
  · have hany' : acc.any (fun e => decide (e.1 = jd)) = false := by
      cases hx : acc.any (fun e => decide (e.1 = jd))
      · rfl
      · exact absurd hx hany
    rw [hany', if_neg (by simp)]
    refine List.Nodup.append h (List.nodup_singleton jd) ?_
    intro x hx hx'
    rcases List.mem_singleton.mp hx' with rfl
    rcases List.mem_map.mp hx with ⟨e, he, he1⟩
    have : acc.any (fun e => decide (e.1 = x)) = true :=
      List.any_eq_true.mpr ⟨e, he, by simp [he1]⟩
    rw [this] at hany'
    exact absurd hany' (by decide)

theorem group_fold_lookup (id : List Char) :
    ∀ (rs : List (List Char × List Char × List Char))
      (acc : List (List Char × List Char × List (List Char))),
      (acc.map (fun e => e.1)).Nodup →
      lookupGroup id
          (rs.foldl (fun acc rec => groupInsert acc rec.1 rec.2.1 (configName rec.2.2)) acc)
        = match lookupGroup id acc with
          | some pr =>
            some (pr.1, pr.2 ++ (rs.filter (fun rec => decide (rec.1 = id))).map
              (fun rec => configName rec.2.2))
          | none =>
            (rs.find? (fun rec => decide (rec.1 = id))).map
              (fun rec0 => (rec0.2.1, (rs.filter (fun rec => decide (rec.1 = id))).map
                (fun rec => configName rec.2.2))) := by
  intro rs
  induction rs with
  | nil =>
    intro acc _
    cases hl : lookupGroup id acc with
    | none => simp [hl]
    | some pr => simp [hl]
  | cons rec rs' ih =>
    intro acc hnd
    simp only [List.foldl_cons]
    have hnd' := @groupInsert_keys_nodup rec.1 rec.2.1 (configName rec.2.2) acc hnd
    rw [ih _ hnd']
    by_cases hrec : rec.1 = id
    · cases hl : lookupGroup id acc with
      | some pr =>
        have h1 : lookupGroup id (groupInsert acc rec.1 rec.2.1 (configName rec.2.2))
            = some (pr.1, pr.2 ++ [configName rec.2.2]) := by
          rw [hrec]
          exact lookupGroup_groupInsert_self_some hl
        rw [h1]
        have hfil : (rec :: rs').filter (fun rec2 => decide (rec2.1 = id))
            = rec :: rs'.filter (fun rec2 => decide (rec2.1 = id)) := by
          simp [List.filter_cons, hrec]
        simp [hfil, List.map_cons]
      | none =>
        have h1 : lookupGroup id (groupInsert acc rec.1 rec.2.1 (configName rec.2.2))
            = some (rec.2.1, [configName rec.2.2]) := by
          rw [hrec]
          exact lookupGroup_groupInsert_self_none hl
        rw [h1]
        have hfind : (rec :: rs').find? (fun rec2 => decide (rec2.1 = id)) = some rec :=
          List.find?_cons_of_pos _ (by simp [hrec])
        have hfil : (rec :: rs').filter (fun rec2 => decide (rec2.1 = id))
            = rec :: rs'.filter (fun rec2 => decide (rec2.1 = id)) := by
          simp [List.filter_cons, hrec]
        simp [hfind, hfil]
    · have h1 : lookupGroup id (groupInsert acc rec.1 rec.2.1 (configName rec.2.2))
          = lookupGroup id acc := lookupGroup_groupInsert_ne hrec acc
      rw [h1]
      have hfind : (rec :: rs').find? (fun rec2 => decide (rec2.1 = id))
          = rs'.find? (fun rec2 => decide (rec2.1 = id)) :=
        List.find?_cons_of_neg _ (by simp [hrec])
      have hfil : (rec :: rs').filter (fun rec2 => decide (rec2.1 = id))
          = rs'.filter (fun rec2 => decide (rec2.1 = id)) := by
        simp [List.filter_cons, hrec]
      rw [hfind, hfil]

theorem groupResults_lookup (rs : List (List Char × List Char × List Char))
    (id : List Char) :
    lookupGroup id (groupResults rs)
      = (rs.find? (fun rec => decide (rec.1 = id))).map
          (fun rec0 => (rec0.2.1, (rs.filter (fun rec => decide (rec.1 = id))).map
            (fun rec => configName rec.2.2))) := by
  have h := group_fold_lookup id rs [] (by simp)
  simpa [groupResults, lookupGroup] using h

theorem groupResults_keys_nodup (rs : List (List Char × List Char × List Char)) :
    ((groupResults rs).map (fun e => e.1)).Nodup := by
  have : ∀ (l : List (List Char × List Char × List Char))
      (acc : List (List Char × List Char × List (List Char))),
      (acc.map (fun e => e.1)).Nodup →
      ((l.foldl (fun acc rec => groupInsert acc rec.1 rec.2.1 (configName rec.2.2))
        acc).map (fun e => e.1)).Nodup := by
    intro l
    induction l with
    | nil => intro acc h; exact h
    | cons rec l' ih =>
      intro acc h
      simp only [List.foldl_cons]
      exact ih _ (groupInsert_keys_nodup h)
  exact this rs [] (by simp)

/-! ## Claim theorems -/

/-- C2: for every rewrite pass (enum, input, or function-block/type
replacement) on a file whose post-substitution content differs from the
original, the pass writes the modified content back, recomputes the file
digest, and when that digest equals the pre-write digest it returns
`changed = false` while still returning the accumulated replacement
counts. -/
theorem noop_guard_reports_unchanged (hash : List Char → Nat) (content : List Char)
    (em im fbm tym rmm : List (List Char × List Char)) :
    ((applyEnumMapping em content).1 ≠ content →
      hash content = hash (applyEnumMapping em content).1 →
      replace_enums hash content em
        = ⟨(applyEnumMapping em content).2, false, (applyEnumMapping em content).1, true⟩)
  ∧ ((applyInputMapping im content).1 ≠ content →
      hash content = hash (applyInputMapping im content).1 →
      replace_inputs hash content im
        = ⟨(applyInputMapping im content).2, false, (applyInputMapping im content).1, true⟩)
  ∧ ((applyWbMapping tym (applyWbMapping fbm content).1).1 ≠ content →
      hash content = hash (applyWbMapping tym (applyWbMapping fbm content).1).1 →
      replace_fbs_and_types hash content fbm tym rmm
        = ⟨(applyWbMapping fbm content).2,
            (applyWbMapping tym (applyWbMapping fbm content).1).2, false,
            (applyWbMapping tym (applyWbMapping fbm content).1).1, true,
            removalMessages rmm (applyWbMapping fbm content).1⟩) := by
  refine ⟨?_, ?_, ?_⟩
  · intro h1 h2
    unfold replace_enums
    rw [if_pos h1, if_pos h2]
  · intro h1 h2
    unfold replace_inputs
    rw [if_pos h1, if_pos h2]
  · intro h1 h2
    unfold replace_fbs_and_types
    rw [if_pos h1, if_pos h2]

/-- Witness for C2 at a concrete file and hash function. -/
theorem noop_guard_reports_unchanged_witness :
    replace_enums (fun _ => 0) "x.a".toList [("a".toList, "b".toList)]
        = ⟨1, false, "x.b".toList, true⟩
  ∧ replace_inputs (fun _ => 0) "x.a".toList [("a".toList, "b".toList)]
        = ⟨1, false, "x.b".toList, true⟩
  ∧ replace_fbs_and_types (fun _ => 0) "x.a".toList [("a".toList, "b".toList)] [] []
        = ⟨1, 0, false, "x.b".toList, true, []⟩ := by
  have h := noop_guard_reports_unchanged (fun _ => 0) "x.a".toList
    [("a".toList, "b".toList)] [("a".toList, "b".toList)] [("a".toList, "b".toList)] [] []
  refine ⟨?_, ?_, ?_⟩
  · exact (h.1 (by decide) rfl).trans (by decide)
  · exact (h.2.1 (by decide) rfl).trans (by decide)
  · exact (h.2.2 (by decide) rfl).trans (by decide)

/-- C3: a file containing zero occurrences of any key of the supplied
mapping tables is left untouched by every rewrite pass: the replacement
counts are zero, `changed = false`, and no write happens. -/
theorem zero_occurrence_pass_is_noop (hash : List Char → Nat) (content : List Char)
    (em im fbm tym rmm : List (List Char × List Char))
    (hE : ∀ kv ∈ em, occursIn kv.1 content = false)
    (hI : ∀ kv ∈ im, occursIn kv.1 content = false)
    (hF : ∀ kv ∈ fbm, occursIn kv.1 content = false)
    (hT : ∀ kv ∈ tym, occursIn kv.1 content = false)
    (hR : ∀ kv ∈ rmm, occursIn kv.1 content = false) :
    replace_enums hash content em = ⟨0, false, content, false⟩
  ∧ replace_inputs hash content im = ⟨0, false, content, false⟩
  ∧ replace_fbs_and_types hash content fbm tym rmm = ⟨0, 0, false, content, false, []⟩ :=
  ⟨replace_enums_of_not_occurs hash hE, replace_inputs_of_not_occurs hash hI,
    replace_fbs_and_types_of_not_occurs hash hF hT hR⟩

/-- Witness for C3 at a concrete file content free of every key. -/
theorem zero_occurrence_pass_is_noop_witness :
    replace_enums (fun l => l.length) "zzz".toList [("a".toList, "b".toList)]
        = ⟨0, false, "zzz".toList, false⟩
  ∧ replace_inputs (fun l => l.length) "zzz".toList [("a".toList, "b".toList)]
        = ⟨0, false, "zzz".toList, false⟩
  ∧ replace_fbs_and_types (fun l => l.length) "zzz".toList
        [("a".toList, "b".toList)] [("c".toList, "d".toList)] [("e".toList, "f.g".toList)]
        = ⟨0, 0, false, "zzz".toList, false, []⟩ :=
  zero_occurrence_pass_is_noop (fun l => l.length) "zzz".toList
    [("a".toList, "b".toList)] [("a".toList, "b".toList)] [("a".toList, "b".toList)]
    [("c".toList, "d".toList)] [("e".toList, "f.g".toList)]
    (by decide) (by decide) (by decide) (by decide) (by decide)

/-- C9: the `replace_inputs` pattern puts the word-boundary assertion
before the escaped dot, so an occurrence of `.` followed by an old mapping
key is rewritten only when the dot is immediately preceded by a word
character; in particular `.key` at the start of the content or after
whitespace is never replaced, and every performed replacement writes `.`
followed by the new key. -/
theorem replace_inputs_dot_sentinel (old new : List Char) :
    (∀ prev : Option Char, bOk prev ('.' :: old).head? = isWordOpt prev)
  ∧ (∀ s : List Char, containsWB ('.' :: old) s = false →
      inputPairSub old new s = (s, 0))
  ∧ (∀ s : List Char, 0 < (inputPairSub old new s).2 →
      occursIn ('.' :: new) (inputPairSub old new s).1 = true)
  ∧ inputPairSub "Foo".toList "Baz".toList (".Foo x".toList) = (".Foo x".toList, 0)
  ∧ inputPairSub "Foo".toList "Baz".toList ("a .Foo".toList) = ("a .Foo".toList, 0)
  ∧ inputPairSub "Foo".toList "Baz".toList ("a.Foo".toList) = ("a.Baz".toList, 1) := by
  refine ⟨?_, ?_, ?_, by decide, by decide, by decide⟩
  · intro prev
    simp [bOk, isWordOpt, isWordChar]
  · intro s h
    exact subnWBF_of_not_containsWBF ('.' :: old) ('.' :: new) s.length none s h
  · intro s h
    exact subnWBF_pos_occurs ('.' :: old) ('.' :: new) s.length none s h

/-- Witness for C9 at a concrete mapping entry and contents. -/
theorem replace_inputs_dot_sentinel_witness :
    inputPairSub "Foo".toList "Baz".toList ("q .Foo".toList) = ("q .Foo".toList, 0)
  ∧ occursIn ('.' :: "Baz".toList)
      (inputPairSub "Foo".toList "Baz".toList ("b.Foo a".toList)).1 = true := by
  have h := replace_inputs_dot_sentinel "Foo".toList "Baz".toList
  exact ⟨h.2.1 _ (by decide), h.2.2.1 _ (by decide)⟩

/-- C4 counterexample: the enumerator rename rule is a literal
substitution (no `\b` in `replace_enums`), so mapping `Foo -> Bar` does
rewrite the inner occurrence in `FooX`, producing `BarX` — the pass
reports one replacement and writes the file. -/
theorem enum_rule_rewrites_inside_identifier :
    replace_enums (fun l => if l = "FooX".toList then 0 else 1) "FooX".toList
        [("Foo".toList, "Bar".toList)]
      = ⟨1, true, "BarX".toList, true⟩ := by decide

/-- C4 (amended): the function-block and type rename rules
(`rf"\b…\b"` patterns) replace only whole-token occurrences — a content
whose occurrences of the key are all flanked by an identifier character is
left unchanged — whereas the enumerator rule substitutes literally,
also inside longer identifiers. -/
theorem word_boundary_scope_of_rename_rules (key rep : List Char) :
    (∀ s : List Char, containsWB key s = false → subnWB key rep s = (s, 0))
  ∧ subnWB "Foo".toList "Bar".toList ("Foobar FooX Foo.Y".toList)
      = ("Foobar FooX Bar.Y".toList, 1)
  ∧ subnLit "Foo".toList "Bar".toList "FooX".toList = ("BarX".toList, 1) := by
  refine ⟨?_, by decide, by decide⟩
  intro s h
  exact subnWBF_of_not_containsWBF key rep s.length none s h

/-- Witness for C4 (amended): `FooX` and `Foobar` contain no whole-token
`Foo`, so the word-bounded substitution leaves them unchanged. -/
theorem word_boundary_scope_of_rename_rules_witness :
    subnWB "Foo".toList "Bar".toList "Foobar FooX".toList
      = ("Foobar FooX".toList, 0) := by
  have h := word_boundary_scope_of_rename_rules "Foo".toList "Bar".toList
  exact h.1 _ (by decide)

/-- C5 counterexample: with the configuration names recorded in the order
`d, c, b, a`, the report shows `sorted(configs[:3]) = [b, c, d]`, not the
first three of the sorted full list `[a, b, c]`. -/
theorem report_sorts_after_truncation :
    (reportEntry ["d".toList, "c".toList, "b".toList, "a".toList]).1
        = ["b".toList, "c".toList, "d".toList]
  ∧ (reportEntry ["d".toList, "c".toList, "b".toList, "a".toList]).1
        ≠ (sortConfigs ["d".toList, "c".toList, "b".toList, "a".toList]).take 3 := by
  decide

/-- C5 (amended): for each flagged identifier the report lists the first
three recorded configuration names in sorted order (a permutation of
`configs[:3]`, sorted); when at most three are recorded the shown names
are exactly the recorded ones sorted and no remainder count is emitted;
when more than three are recorded the `and N more` count is the number of
recorded names beyond the first three. -/
theorem report_entry_sorted_take (configs : List (List Char)) :
    List.Pairwise LeB (reportEntry configs).1
  ∧ ((reportEntry configs).1).Perm (configs.take 3)
  ∧ (configs.length ≤ 3 →
      ((reportEntry configs).1).Perm configs ∧ (reportEntry configs).2 = none)
  ∧ (3 < configs.length → (reportEntry configs).2 = some (configs.length - 3)) := by
  refine ⟨sortConfigs_pairwise _, sortConfigs_perm _, ?_, ?_⟩
  · intro hle
    constructor
    · exact (sortConfigs_perm (configs.take 3)).trans
        (List.Perm.of_eq (List.take_of_length_le hle))
    · simp only [reportEntry]
      rw [if_neg (by omega)]
  · intro hlt
    simp only [reportEntry]
    rw [if_pos hlt]

/-- Witness for C5 (amended) at a concrete configuration list. -/
theorem report_entry_sorted_take_witness :
    ((reportEntry ["b".toList, "a".toList]).1).Perm ["b".toList, "a".toList]
  ∧ (reportEntry ["b".toList, "a".toList]).2 = none
  ∧ (reportEntry ["e".toList, "d".toList, "c".toList, "b".toList, "a".toList]).2
      = some 2 := by
  have h1 := report_entry_sorted_take ["b".toList, "a".toList]
  have h2 := report_entry_sorted_take
    ["e".toList, "d".toList, "c".toList, "b".toList, "a".toList]
  exact ⟨(h1.2.2.1 (by decide)).1, (h1.2.2.1 (by decide)).2, h2.2.2.2 (by decide)⟩

/-- C1 counterexample: two extraction functions sharing a `__name__`
collapse to a single key of the result mapping (the per-file dict is also
keyed by name, so the later function's per-file result overwrites the
earlier one's): a scan with K = 2 functions returns one key. -/
theorem scan_duplicate_name_collapses_keys :
    (scan_files_parallel_multi [("f", fun _ => ([0] : List Nat)), ("f", fun _ => [1])]
        (filePathsOf ["a.x".toList] [".x".toList])).length = 1
  ∧ scan_files_parallel_multi [("f", fun _ => ([0] : List Nat)), ("f", fun _ => [1])]
        (filePathsOf ["a.x".toList] [".x".toList])
      = [("f", [1])] := by
  exact ⟨by decide, by decide⟩

/-- C1 (amended): provided the K extraction functions have pairwise
distinct names, the list-mode scan returns a mapping with exactly K keys,
in function order, each key holding the concatenation in completion order
of that function's per-file results — a multiset equal to the union of the
function's results over all enumerated files; a single function supplied
not as a list yields that flat aggregate with no function-identity key. -/
theorem scan_keyed_aggregate {α : Type} (funcs : List (String × (List Char → List α)))
    (files exts completed : List (List Char))
    (hnd : (funcs.map Prod.fst).Nodup)
    (hperm : completed.Perm (filePathsOf files exts)) :
    scan_files_parallel_multi funcs completed
        = funcs.map (fun nf => (nf.1, completed.flatMap nf.2))
  ∧ (scan_files_parallel_multi funcs completed).map Prod.fst = funcs.map Prod.fst
  ∧ (scan_files_parallel_multi funcs completed).length = funcs.length
  ∧ (∀ nf ∈ funcs, ∃ l,
      lookupAssoc nf.1 (scan_files_parallel_multi funcs completed) = some l
      ∧ l.Perm ((filePathsOf files exts).flatMap nf.2))
  ∧ (∀ nf : String × (List Char → List α),
      (scan_files_parallel_single nf completed).Perm
        ((filePathsOf files exts).flatMap nf.2)) := by
  have hmain := scan_files_parallel_multi_eq hnd completed
  refine ⟨hmain, ?_, ?_, ?_, ?_⟩
  · rw [hmain, List.map_map]
    rfl
  · rw [hmain, List.length_map]
  · intro nf hnf
    refine ⟨completed.flatMap nf.2, ?_, ?_⟩
    · rw [hmain]
      exact lookupAssoc_map_eq _ funcs nf hnd hnf
    · exact List.Perm.flatMap_right nf.2 hperm
  · intro nf
    rw [scan_files_parallel_single_eq]
    exact List.Perm.flatMap_right nf.2 hperm

/-- Witness for C1 (amended) on a concrete scan with two distinct-named
functions. -/
theorem scan_keyed_aggregate_witness :
    scan_files_parallel_multi
        [("f", fun p => ([p.length] : List Nat)), ("g", fun _ => [7])]
        (filePathsOf ["ab.hw".toList, "c.hw".toList] [".hw".toList])
      = [("f", [5, 4]), ("g", [7, 7])] := by
  have h := scan_keyed_aggregate
    [("f", fun p => ([p.length] : List Nat)), ("g", fun _ => [7])]
    ["ab.hw".toList, "c.hw".toList] [".hw".toList]
    (filePathsOf ["ab.hw".toList, "c.hw".toList] [".hw".toList])
    (by decide) (List.Perm.refl _)
  exact h.1.trans (by decide)

/-- C6 counterexample: a file whose name matches two of the supplied
extension filters is enumerated twice (`a.hw` matches both `*.hw` and
`*w`), is processed by two tasks, and its extraction results are
contributed twice to the aggregate. -/
theorem file_enumerated_once_per_matching_filter :
    List.count "a.hw".toList (filePathsOf ["a.hw".toList] [".hw".toList, "w".toList]) = 2
  ∧ scan_files_parallel_single ("f", fun _ => ([0] : List Nat))
      (filePathsOf ["a.hw".toList] [".hw".toList, "w".toList]) = [0, 0] := by
  exact ⟨by decide, by decide⟩

/-- C6 (amended): each file under the root appears in the eager
enumeration once per extension filter its name matches (so exactly once
when exactly one filter matches), and the aggregate contributes each
enumerated occurrence's extraction results exactly once: the single-mode
aggregate is a permutation of the enumeration's flat map. -/
theorem scan_enumeration_multiplicity {α : Type} (files exts : List (List Char))
    (p : List Char) (hnd : files.Nodup) (hmem : p ∈ files) :
    List.count p (filePathsOf files exts)
        = exts.countP (fun e => endsWithL (basename p) e)
  ∧ ∀ (nf : String × (List Char → List α)) (completed : List (List Char)),
      completed.Perm (filePathsOf files exts) →
      (scan_files_parallel_single nf completed).Perm
        ((filePathsOf files exts).flatMap nf.2) := by
  refine ⟨count_filePathsOf hnd hmem exts, ?_⟩
  intro nf completed hperm
  rw [scan_files_parallel_single_eq]
  exact List.Perm.flatMap_right nf.2 hperm

/-- Witness for C6 (amended) on a concrete scan. -/
theorem scan_enumeration_multiplicity_witness :
    List.count "a.hw".toList
        (filePathsOf ["a.hw".toList, "b.st".toList] [".hw".toList]) = 1
  ∧ (scan_files_parallel_single ("f", fun _ => ([0] : List Nat))
        (filePathsOf ["a.hw".toList, "b.st".toList] [".hw".toList])).Perm
      ((filePathsOf ["a.hw".toList, "b.st".toList] [".hw".toList]).flatMap
        (fun _ => [0])) := by
  have h := @scan_enumeration_multiplicity Nat ["a.hw".toList, "b.st".toList]
    [".hw".toList] "a.hw".toList (by decide) (by decide)
  exact ⟨h.1.trans (by decide), h.2 ("f", fun _ => [0]) _ (List.Perm.refl _)⟩

/-- Helper for C7: the removal messages returned by the pass are always
computed from the content as left by the FB loop, in every branch. -/
theorem replace_fbs_messages_eq (hash : List Char → Nat) (content : List Char)
    (fbm tym rmm : List (List Char × List Char)) :
    (replace_fbs_and_types hash content fbm tym rmm).messages
      = removalMessages rmm (applyWbMapping fbm content).1 := by
  unfold replace_fbs_and_types
  by_cases h1 : (applyWbMapping tym (applyWbMapping fbm content).1).1 ≠ content
  · rw [if_pos h1]
    by_cases h2 : hash content
        = hash (applyWbMapping tym (applyWbMapping fbm content).1).1
    · rw [if_pos h2]
    · rw [if_neg h2]
  · rw [if_neg h1]

/-- C7 counterexample: with `fb_mapping = {A: B}` and
`fb_removal_mapping = {A: F.E}`, the input `A` contains the removal key as
a whole token, yet the pass emits no message (the removal loop searches
the content after the FB loop already rewrote `A` to `B`) and the key is
no longer present in the output content. -/
theorem removal_key_rewritten_without_report :
    (replace_fbs_and_types (fun _ => 0) "A".toList [("A".toList, "B".toList)] []
        [("A".toList, "F.E".toList)]).messages = []
  ∧ occursIn "A".toList
      (replace_fbs_and_types (fun _ => 0) "A".toList [("A".toList, "B".toList)] []
        [("A".toList, "F.E".toList)]).fileContent = false := by
  exact ⟨by decide, by decide⟩

/-- C7 (amended): the removal loop itself never rewrites and never counts:
the pass's counts, `changed` flag, file content and write behavior are
identical to a run with an empty removal mapping; and whenever a removal
key occurs word-bounded in the content left by the FB loop (the content
the code searches), the descriptive message naming the target's FB part
and element part is emitted. -/
theorem removal_mapping_report_only (hash : List Char → Nat) (content : List Char)
    (fbm tym rmm : List (List Char × List Char)) :
    ((replace_fbs_and_types hash content fbm tym rmm).fbReplacements
        = (replace_fbs_and_types hash content fbm tym []).fbReplacements
    ∧ (replace_fbs_and_types hash content fbm tym rmm).typeReplacements
        = (replace_fbs_and_types hash content fbm tym []).typeReplacements
    ∧ (replace_fbs_and_types hash content fbm tym rmm).changed
        = (replace_fbs_and_types hash content fbm tym []).changed
    ∧ (replace_fbs_and_types hash content fbm tym rmm).fileContent
        = (replace_fbs_and_types hash content fbm tym []).fileContent
    ∧ (replace_fbs_and_types hash content fbm tym rmm).wroteFile
        = (replace_fbs_and_types hash content fbm tym []).wroteFile)
  ∧ (∀ kv ∈ rmm, containsWB kv.1 (applyWbMapping fbm content).1 = true →
      removalMessage kv.1 kv.2
        ∈ (replace_fbs_and_types hash content fbm tym rmm).messages) := by
  constructor
  · unfold replace_fbs_and_types
    by_cases h1 : (applyWbMapping tym (applyWbMapping fbm content).1).1 ≠ content
    · simp only [if_pos h1]
      by_cases h2 : hash content
          = hash (applyWbMapping tym (applyWbMapping fbm content).1).1
      · simp [if_pos h2]
      · simp [if_neg h2]
    · simp [if_neg h1]
  · intro kv hkv hc
    rw [replace_fbs_messages_eq]
    unfold removalMessages
    refine List.mem_flatMap.mpr ⟨kv, hkv, ?_⟩
    simp [hc]

/-- Witness for C7 (amended): a removal key present word-bounded in the
content is reported. -/
theorem removal_mapping_report_only_witness :
    removalMessage "X".toList "F.E".toList
      ∈ (replace_fbs_and_types (fun _ => 0) "X y".toList [] []
          [("X".toList, "F.E".toList)]).messages := by
  have h := removal_mapping_report_only (fun _ => 0) "X y".toList [] []
    [("X".toList, "F.E".toList)]
  exact h.2 ("X".toList, "F.E".toList) (by decide) (by decide)

/-- C8 counterexample: with the project path and `.apj` file present but
`Logical/Libraries/Package.pkg` missing and the user answering `y`, the
run prints a bare error line, proceeds to the replacement phase and
returns normally — it does not log at ERROR severity and does not
terminate with a failure exit. -/
theorem missing_package_pkg_run_proceeds :
    (main_model true true false [] "pkgpath" "y").1 = RunOutcome.proceeded
  ∧ (main_model true true false [] "pkgpath" "y").2.all
      (fun m => !isErrorLog m) = true := by
  exact ⟨by decide, by decide⟩

/-- C8 (amended): when `Package.pkg` is missing the run reports the
condition with a bare `print` of an `Error:` line (not an ERROR-severity
log call), treats it as "no libraries found", asks the user whether to
continue, and ends either cancelled or proceeding normally — never with a
failure exit. -/
theorem missing_package_pkg_nonfatal (pkgContent : List Char)
    (pkgFile answer : String) :
    ((main_model true true false pkgContent pkgFile answer).1 = RunOutcome.proceeded
      ∨ (main_model true true false pkgContent pkgFile answer).1 = RunOutcome.cancelled)
  ∧ OutMsg.plain ("Error: Could not find Package.pkg file in: " ++ pkgFile)
      ∈ (main_model true true false pkgContent pkgFile answer).2
  ∧ (∀ m ∈ (main_model true true false pkgContent pkgFile answer).2,
      isErrorLog m = false) := by
  have hchk : check_for_library false pkgContent pkgFile
      ["McAxis".toList, "MpAxis".toList, "McBase".toList, "McAcpAx".toList,
        "McAcpTrak".toList, "McAcpAx".toList]
      = ([], [OutMsg.plain ("Error: Could not find Package.pkg file in: " ++ pkgFile)]) := by
    unfold check_for_library
    rw [if_pos rfl]
  have hred : main_model true true false pkgContent pkgFile answer
      = main_library_gate false pkgContent pkgFile answer := by
    unfold main_model
    rw [if_neg (by simp), if_neg (by simp)]
  by_cases ha : answerIsYes answer = true
  · have hg : main_library_gate false pkgContent pkgFile answer
        = (RunOutcome.proceeded,
            [OutMsg.plain ("Error: Could not find Package.pkg file in: " ++ pkgFile),
              OutMsg.plain "None of the libraries supported by the script were found."]) := by
      unfold main_library_gate
      rw [hchk]
      simp [ha]
    rw [hred, hg]
    refine ⟨Or.inl rfl, by simp, ?_⟩
    intro m hm
    rcases List.mem_cons.mp hm with rfl | hm'
    · rfl
    · rcases List.mem_singleton.mp hm' with rfl
      rfl
  · have ha' : answerIsYes answer = false := by
      cases hx : answerIsYes answer
      · rfl
      · exact absurd hx ha
    have hg : main_library_gate false pkgContent pkgFile answer
        = (RunOutcome.cancelled,
            [OutMsg.plain ("Error: Could not find Package.pkg file in: " ++ pkgFile),
              OutMsg.plain "None of the libraries supported by the script were found.",
              OutMsg.plain "Operation cancelled. No changes were made."]) := by
      unfold main_library_gate
      rw [hchk]
      simp [ha']
    rw [hred, hg]
    refine ⟨Or.inr rfl, by simp, ?_⟩
    intro m hm
    rcases List.mem_cons.mp hm with rfl | hm'
    · rfl
    · rcases List.mem_cons.mp hm' with rfl | hm''
      · rfl
      · rcases List.mem_singleton.mp hm'' with rfl
        rfl

/-- Witness for C8 (amended) at a concrete missing-package run. -/
theorem missing_package_pkg_nonfatal_witness :
    ((main_model true true false "x".toList "P" "n").1 = RunOutcome.proceeded
      ∨ (main_model true true false "x".toList "P" "n").1 = RunOutcome.cancelled)
  ∧ OutMsg.plain ("Error: Could not find Package.pkg file in: " ++ "P")
      ∈ (main_model true true false "x".toList "P" "n").2 := by
  have h := missing_package_pkg_nonfatal "x".toList "P" "n"
  exact ⟨h.1, h.2.1⟩

/-- C10: `process_hw_file` returns one record per `(identifier, reason)`
pair of a file (set semantics: the result list is duplicate-free and holds
exactly the tuples `(type, reason, path)` with the type extracted from the
file and listed under that reason in the catalog); the grouping loop of
`check_hardware` keeps exactly one entry per identifier whose reason is
the reason of the first aggregated record, and appends one configuration
folder name per further record — so the configuration list can hold the
same name more than once. -/
theorem hardware_grouping_first_reason
    (file_path content : List Char) (hd : List (List Char × List (List Char)))
    (rs : List (List Char × List Char × List Char)) (id : List Char) :
    (process_hw_file file_path content hd).Nodup
  ∧ (∀ y, y ∈ process_hw_file file_path content hd ↔
      ∃ t ∈ hwFindall content, ∃ rim ∈ hd, t ∈ rim.2 ∧ y = (t, rim.1, file_path))
  ∧ ((groupResults rs).map (fun e => e.1)).Nodup
  ∧ lookupGroup id (groupResults rs)
      = (rs.find? (fun rec => decide (rec.1 = id))).map
          (fun rec0 => (rec0.2.1, (rs.filter (fun rec => decide (rec.1 = id))).map
            (fun rec => configName rec.2.2)))
  ∧ groupResults [("i".toList, "r".toList, "P/cfgA/a.hw".toList),
        ("i".toList, "s".toList, "P/cfgA/b.hw".toList)]
      = [("i".toList, "r".toList, ["cfgA".toList, "cfgA".toList])] :=
  ⟨process_hw_file_nodup _ _ _, process_hw_file_mem _ _ _,
    groupResults_keys_nodup rs, groupResults_lookup rs id, by decide⟩

/-- Witness for C10 at a concrete file and catalog. -/
theorem hardware_grouping_first_reason_witness :
    ("X".toList, "EOL".toList, "p".toList)
      ∈ process_hw_file "p".toList "<Module Type=\"X\">".toList
          [("EOL".toList, ["X".toList])] := by
  have h := hardware_grouping_first_reason "p".toList "<Module Type=\"X\">".toList
    [("EOL".toList, ["X".toList])] [] []
  exact (h.2.1 _).mpr
    ⟨"X".toList, by decide, ("EOL".toList, ["X".toList]), by decide, by decide, rfl⟩
